import Mathlib

/-!
Shallow embedding of the CPU-scheduling simulator in `main.go` of
CSCE4600-Project1, together with theorems checking the natural-language
specification claims against it.

The Go program defines a data model (`Process`, `TimeSlice`, report rows as
string slices) and four scheduler functions: `FCFSSchedule`, `SJFSchedule`,
`SJFPrioritySchedule` and `RRSchedule`.  Each function folds over the input,
emitting report rows (into a slice `schedule`), Gantt segments (`gantt`), and
accumulating `serviceTime`, `totalWait`, `totalTurnaround`, `lastCompletion`
and `waitingTime`, then computes aggregate averages and throughput.

Modelling conventions:
* Go `int64` / `int` values are modelled as `Int` (overflow is immaterial to
  the claims considered, which are either wrap-invariant identities or
  concrete small inputs).
* Go `float64` accumulators only ever receive integer values here, so the
  totals are kept as `Int`; the final divisions are modelled over `ℚ`, with
  a zero denominator standing for the IEEE-754 NaN result of `0/0`.
* A Go `map` is modelled as an association list in insertion order, with
  overwrite-in-place update and Go zero-value semantics on a missing key.
  Go randomises map iteration order; the only map the schedulers iterate
  over is `processesLeft` (and the derived group maps), for which we fix
  insertion order.  Theorems below do not depend on order except where
  noted.
* `schedule[ct] = row` with `schedule := make([][]string, 100)` panics when
  `ct >= 100`; a panic is modelled by `Option.none`.
* `sort.Slice` (used by `RRSchedule` on the caller slice) is modelled by a
  stable insertion sort on the arrival key; Go does not promise stability,
  so concrete theorems touching the sorted order use distinct arrival times.
* `RRSchedule`'s outer `for len(remProcesses) > 0` loop is modelled with
  explicit fuel (sufficient fuel for every terminating run); universally
  quantified theorems are stated for every fuel value.
-/

namespace Sched

/-- Go struct `Process` (fields `ProcessID`, `ArrivalTime`, `BurstDuration`,
`Priority`, all `int64`). The `Inhabited` default is the Go zero value. -/
structure Process where
  processID : Int
  arrivalTime : Int
  burstDuration : Int
  priority : Int
deriving Repr, DecidableEq, Inhabited

/-- Go struct `TimeSlice` (one Gantt segment). -/
structure TimeSlice where
  pid : Int
  start : Int
  stop : Int
deriving Repr, DecidableEq, Inhabited

/-- One report row of the schedule table: columns
`ID, Priority, Burst, Arrival, Wait, Turnaround, Exit` (the Go code stores
them as strings via `fmt.Sprint`; we keep the integer values). -/
structure Row where
  pid : Int
  priority : Int
  burst : Int
  arrival : Int
  waiting : Int
  turnaround : Int
  completion : Int
deriving Repr, DecidableEq, Inhabited

/-- Go `map[int]Process` / `map[int64]Process` as an association list in
insertion order. -/
abbrev PMap := List (Int × Process)

/-- Go map read `m[k]`: the stored value, or the zero value when missing. -/
def plookup (m : PMap) (k : Int) : Process :=
  match m with
  | [] => default
  | (k2, v) :: rest => if k = k2 then v else plookup rest k

/-- Go two-valued map read `v, ok := m[k]`. -/
def pfind (m : PMap) (k : Int) : Option Process :=
  match m with
  | [] => none
  | (k2, v) :: rest => if k = k2 then some v else pfind rest k

/-- Go map write `m[k] = v` (overwrite in place, else append). -/
def pinsert (m : PMap) (k : Int) (v : Process) : PMap :=
  match m with
  | [] => [(k, v)]
  | (k2, v2) :: rest => if k = k2 then (k2, v) :: rest else (k2, v2) :: pinsert rest k v

/-- Go `delete(m, k)`. -/
def perase (m : PMap) (k : Int) : PMap :=
  match m with
  | [] => []
  | (k2, v2) :: rest => if k = k2 then rest else (k2, v2) :: perase rest k

/-- Go `map[int][]Process` (the drain-phase group maps). -/
abbrev GMap := List (Int × List Process)

/-- The Go group-insert idiom: `val, ok := g[k]; if ok {g[k] = append(val, v)}
else {g[k] = []Process{v}}`. -/
def ginsert (g : GMap) (k : Int) (v : Process) : GMap :=
  match g with
  | [] => [(k, [v])]
  | (k2, l) :: rest => if k = k2 then (k2, l ++ [v]) :: rest else (k2, l) :: ginsert rest k v

/-- Go map read `g[k]` for the group map. -/
def glookup (g : GMap) (k : Int) : List Process :=
  match g with
  | [] => []
  | (k2, l) :: rest => if k = k2 then l else glookup rest k

/-- Insert into a sorted `Int` list (helper for `sortInts`). -/
def insertSorted (x : Int) : List Int → List Int
  | [] => [x]
  | y :: ys => if x ≤ y then x :: y :: ys else y :: insertSorted x ys

/-- Go `sort.Ints` (deterministic ascending sort, duplicates kept). -/
def sortInts : List Int → List Int
  | [] => []
  | x :: xs => insertSorted x (sortInts xs)

/-- Insert a process into a list sorted by arrival time (helper for
`sortByArrival`). -/
def insertByArrival (x : Process) : List Process → List Process
  | [] => [x]
  | y :: ys =>
    if x.arrivalTime < y.arrivalTime then x :: y :: ys else y :: insertByArrival x ys

/-- Go `sort.Slice` on `processes` with the less function comparing
`ArrivalTime` with `<`, modelled as a stable insertion sort (Go's
`sort.Slice` is unstable, so orders may differ only between processes with
equal arrival times). -/
def sortByArrival : List Process → List Process
  | [] => []
  | x :: xs => insertByArrival x (sortByArrival xs)

/-! ## FCFSSchedule -/

/-- The local variables of `FCFSSchedule` that live across loop iterations,
plus the rows and Gantt segments emitted so far. -/
structure FCFSState where
  serviceTime : Int := 0
  totalWait : Int := 0
  totalTurnaround : Int := 0
  lastCompletion : Int := 0
  waitingTime : Int := 0
  schedule : List Row := []
  gantt : List TimeSlice := []
deriving Repr, DecidableEq, Inhabited

/-- One iteration of the `for i := range processes` loop of `FCFSSchedule`. -/
def fcfsStep (s : FCFSState) (p : Process) : FCFSState :=
  let waitingTime := if p.arrivalTime > 0 then s.serviceTime - p.arrivalTime else s.waitingTime
  let start := waitingTime + p.arrivalTime
  let turnaround := p.burstDuration + waitingTime
  let completion := p.burstDuration + p.arrivalTime + waitingTime
  let row : Row :=
    ⟨p.processID, p.priority, p.burstDuration, p.arrivalTime, waitingTime, turnaround, completion⟩
  let serviceTime := s.serviceTime + p.burstDuration
  { serviceTime := serviceTime
    totalWait := s.totalWait + waitingTime
    totalTurnaround := s.totalTurnaround + turnaround
    lastCompletion := completion
    waitingTime := waitingTime
    schedule := s.schedule ++ [row]
    gantt := s.gantt ++ [⟨p.processID, start, serviceTime⟩] }

/-- The whole loop of `FCFSSchedule` (the computation handed to the output
helpers). -/
def fcfsRun (ps : List Process) : FCFSState :=
  ps.foldl fcfsStep {}

/-- Go `count := float64(len(processes))` in `FCFSSchedule`. -/
def fcfsCount (ps : List Process) : Int := ps.length

/-- Go `aveThroughput := count / lastCompletion` (float division, exact on ℚ
except that `0/0` is IEEE NaN where ℚ yields 0). -/
def fcfsThroughput (ps : List Process) : ℚ :=
  (fcfsCount ps : ℚ) / ((fcfsRun ps).lastCompletion : ℚ)

/-! ## SJFSchedule and SJFPrioritySchedule

Both functions share the same local state, the same preemption block (lines
397-430 resp. 172-206 of `main.go`, identical up to the tested condition and
up to printing the freshly assigned `waitingTime` under its alias `start`)
and the same completion block (lines 431-466 resp. 208-243).  They differ in
the branch conditions, in `SJFSchedule` making the completion block an
`else if` where `SJFPrioritySchedule` uses an independent `if`, and in the
drain phase grouping by `BurstDuration` resp. `Priority`. -/

/-- The local variables of `SJFSchedule` / `SJFPrioritySchedule` that live
across iterations of the arrival loop and the drain phase. -/
structure PreState where
  serviceTime : Int := 0
  totalWait : Int := 0
  totalTurnaround : Int := 0
  lastCompletion : Int := 0
  waitingTime : Int := 0
  ct : Nat := 0
  schedule : List Row := []
  gantt : List TimeSlice := []
  currProcess : Process := default
  start : Int := 0
  processesLeft : PMap := []
deriving Repr, DecidableEq, Inhabited

/-- The preemption block: emit a row for the span the running process has
executed, store it back into `processesLeft` with
`currProcess.BurstDuration -= int64(a)` (note: minus the absolute arrival
instant `a`, not minus the executed span), and make the arrival at `a` the
running process.  `schedule[ct]` panics (`none`) when `ct ≥ 100`. -/
def preemptBlock (m : PMap) (a : Int) (s : PreState) : Option PreState :=
  if s.ct < 100 then
    let waitingTime := s.start
    let completion := a
    let turnaround := completion - s.currProcess.arrivalTime
    let row : Row :=
      ⟨s.currProcess.processID, s.currProcess.priority, completion - s.start,
        s.currProcess.arrivalTime, waitingTime, turnaround, completion⟩
    let updated := { s.currProcess with burstDuration := s.currProcess.burstDuration - a }
    some { s with
      waitingTime := waitingTime
      totalWait := s.totalWait + waitingTime
      lastCompletion := completion
      totalTurnaround := s.totalTurnaround + turnaround
      schedule := s.schedule ++ [row]
      gantt := s.gantt ++ [⟨s.currProcess.processID, s.start, s.serviceTime⟩]
      processesLeft := pinsert s.processesLeft updated.processID updated
      currProcess := plookup m a
      start := a
      ct := s.ct + 1 }
  else none

/-- The completion block: emit a completion row for the running process at
`completion = start + currProcess.BurstDuration`, set
`serviceTime = completion`, delete the process from `processesLeft`, and
make the arrival at `a` the running process. -/
def completeBlock (m : PMap) (a : Int) (s : PreState) : Option PreState :=
  if s.ct < 100 then
    let waitingTime := s.start
    let completion := s.start + s.currProcess.burstDuration
    let turnaround := completion - s.currProcess.arrivalTime
    let row : Row :=
      ⟨s.currProcess.processID, s.currProcess.priority, completion - s.start,
        s.currProcess.arrivalTime, waitingTime, turnaround, completion⟩
    some { s with
      waitingTime := waitingTime
      totalWait := s.totalWait + waitingTime
      lastCompletion := completion
      totalTurnaround := s.totalTurnaround + turnaround
      schedule := s.schedule ++ [row]
      serviceTime := completion
      gantt := s.gantt ++ [⟨s.currProcess.processID, s.start, completion⟩]
      processesLeft := perase s.processesLeft s.currProcess.processID
      currProcess := plookup m a
      start := a
      ct := s.ct + 1 }
  else none

/-- The branch structure of one `SJFSchedule` arrival iteration (after the
`serviceTime` update): preempt when `int(currProcess.BurstDuration) - a >
int(aTimesMap[a].BurstDuration)`, else complete when
`int(currProcess.BurstDuration) - a <= 0` or this is the last arrival. -/
def sjfStepBody (m : PMap) (isLast : Bool) (a : Int) (s : PreState) : Option PreState :=
  if s.currProcess.burstDuration - a > (plookup m a).burstDuration then
    preemptBlock m a s
  else if s.currProcess.burstDuration - a ≤ 0 ∨ isLast then
    completeBlock m a s
  else
    some s

/-- The update `serviceTime += aTimeNums[i] - aTimeNums[i-1]`, executed at the top of
every arrival iteration with `i ≠ 0`. -/
def stepState (aPrev a : Int) (s : PreState) : PreState :=
  { s with serviceTime := s.serviceTime + (a - aPrev) }

/-- One iteration (for `i ≠ 0`) of the arrival loop of `SJFSchedule`:
`serviceTime += aTimeNums[i] - aTimeNums[i-1]`, then the branches. -/
def sjfStep (m : PMap) (isLast : Bool) (aPrev a : Int) (s : PreState) : Option PreState :=
  sjfStepBody m isLast a (stepState aPrev a s)

/-- The branch structure of one `SJFPrioritySchedule` arrival iteration
(after the `serviceTime` update): preempt when `aTimesMap[a].Priority <
currProcess.Priority`; then (an independent `if`, evaluated on the possibly
updated `currProcess`) complete when `int(currProcess.ArrivalTime +
currProcess.BurstDuration) <= a` or this is the last arrival. -/
def priStepBody (m : PMap) (isLast : Bool) (a : Int) (s : PreState) : Option PreState :=
  (if (plookup m a).priority < s.currProcess.priority then preemptBlock m a s else some s).bind
    fun s1 =>
      if s1.currProcess.arrivalTime + s1.currProcess.burstDuration ≤ a ∨ isLast then
        completeBlock m a s1
      else
        some s1

/-- One iteration (for `i ≠ 0`) of the arrival loop of
`SJFPrioritySchedule`. -/
def priStep (m : PMap) (isLast : Bool) (aPrev a : Int) (s : PreState) : Option PreState :=
  priStepBody m isLast a (stepState aPrev a s)

/-- The arrival loop over the sorted `aTimeNums`, from index 1 on (the
iteration at index 0 only executes `continue`). -/
def mainLoop (step : PMap → Bool → Int → Int → PreState → Option PreState)
    (m : PMap) (aPrev : Int) (rest : List Int) (s : PreState) : Option PreState :=
  match rest with
  | [] => some s
  | a :: rest2 => (step m rest2.isEmpty aPrev a s).bind (mainLoop step m a rest2)

/-- The `burstMap` / `priorityMap` group map, built from the values left in
`processesLeft`. -/
def buildGroups (key : Process → Int) (vs : List Process) : GMap :=
  vs.foldl (fun g v => ginsert g (key v) v) []

/-- Drain-phase body for a singleton group (`len(groupMap[k]) == 1`):
`waitingTime = serviceTime` unconditionally, then emit one completion row. -/
def drainSingle (p : Process) (s : PreState) : Option PreState :=
  if s.ct < 100 then
    let waitingTime := s.serviceTime
    let start := waitingTime
    let completion := p.burstDuration + waitingTime
    let turnaround := completion - p.arrivalTime
    let row : Row :=
      ⟨p.processID, p.priority, p.burstDuration, p.arrivalTime, waitingTime, turnaround,
        completion⟩
    some { s with
      waitingTime := waitingTime
      totalWait := s.totalWait + waitingTime
      lastCompletion := completion
      totalTurnaround := s.totalTurnaround + turnaround
      schedule := s.schedule ++ [row]
      serviceTime := s.serviceTime + p.burstDuration
      gantt := s.gantt ++ [⟨p.processID, start, s.serviceTime + p.burstDuration⟩]
      ct := s.ct + 1 }
  else none

/-- Drain-phase body for one arrival of a multi-member group: the row for
`aTimesMap[a]`, with `waitingTime` updated only when
`aTimesMap[a].ArrivalTime > 0`. -/
def drainMultiOne (am : PMap) (a : Int) (s : PreState) : Option PreState :=
  let p := plookup am a
  if s.ct < 100 then
    let waitingTime := if p.arrivalTime > 0 then s.serviceTime else s.waitingTime
    let start := waitingTime
    let completion := p.burstDuration + waitingTime
    let turnaround := completion - p.arrivalTime
    let row : Row :=
      ⟨p.processID, p.priority, p.burstDuration, p.arrivalTime, waitingTime, turnaround,
        completion⟩
    some { s with
      waitingTime := waitingTime
      totalWait := s.totalWait + waitingTime
      lastCompletion := completion
      totalTurnaround := s.totalTurnaround + turnaround
      schedule := s.schedule ++ [row]
      serviceTime := s.serviceTime + p.burstDuration
      gantt := s.gantt ++ [⟨p.processID, start, s.serviceTime + p.burstDuration⟩]
      ct := s.ct + 1 }
  else none

/-- The inner loop of a multi-member drain group over its sorted arrival
times. -/
def drainMulti (am : PMap) (arrs : List Int) (s : PreState) : Option PreState :=
  match arrs with
  | [] => some s
  | a :: rest => (drainMultiOne am a s).bind (drainMulti am rest)

/-- The `aTimesMap` of a multi-member drain group. -/
def groupATimes (l : List Process) : PMap :=
  l.foldl (fun m v => pinsert m v.arrivalTime v) []

/-- Processing one group key of the drain phase. -/
def drainGroup (g : GMap) (k : Int) (s : PreState) : Option PreState :=
  if (glookup g k).length = 1 then
    drainSingle (glookup g k).headI s
  else
    drainMulti (groupATimes (glookup g k)) (sortInts ((glookup g k).map (·.arrivalTime))) s

/-- The drain-phase loop over the sorted group keys. -/
def drainLoop (g : GMap) (ks : List Int) (s : PreState) : Option PreState :=
  match ks with
  | [] => some s
  | k :: rest => (drainGroup g k s).bind (drainLoop g rest)

/-- The full drain phase: group the values left in `processesLeft` by `key`
(`BurstDuration` for SJF, `Priority` for priority scheduling), then process
groups in ascending key order. -/
def drainPhase (key : Process → Int) (s : PreState) : Option PreState :=
  drainLoop (buildGroups key (s.processesLeft.map (·.2)))
    (sortInts ((buildGroups key (s.processesLeft.map (·.2))).map (·.1))) s

/-- The `aTimesMap`, keyed by arrival time (a later process with the same
arrival time overwrites an earlier one). -/
def buildATimes (ps : List Process) : PMap :=
  ps.foldl (fun m p => pinsert m p.arrivalTime p) []

/-- The `processesLeft` / `remProcesses` map, keyed by process id. -/
def buildLeft (ps : List Process) : PMap :=
  ps.foldl (fun m p => pinsert m p.processID p) []

/-- Common outline of `SJFSchedule` and `SJFPrioritySchedule`: build the
maps and the sorted `aTimeNums`, read `aTimesMap[aTimeNums[0]]` (which
panics — `none` — on an empty input), run the arrival loop, then the drain
phase. -/
def preSchedule (step : PMap → Bool → Int → Int → PreState → Option PreState)
    (key : Process → Int) (ps : List Process) : Option PreState :=
  let m := buildATimes ps
  let left := buildLeft ps
  match sortInts (ps.map (·.arrivalTime)) with
  | [] => none
  | a0 :: rest =>
    let s0 : PreState := { currProcess := plookup m a0, processesLeft := left }
    (mainLoop step m a0 rest s0).bind (drainPhase key)

/-- The `SJFSchedule` function (preemptive shortest-remaining-time variant). -/
def SJFSchedule (ps : List Process) : Option PreState :=
  preSchedule sjfStep (·.burstDuration) ps

/-- The `SJFPrioritySchedule` function (preemptive priority variant). -/
def SJFPrioritySchedule (ps : List Process) : Option PreState :=
  preSchedule priStep (·.priority) ps

/-- Go `aveThroughput := count / lastCompletion` with `count := float64(ct)`. -/
def PreState.throughput (s : PreState) : ℚ :=
  (s.ct : ℚ) / (s.lastCompletion : ℚ)

/-! ## RRSchedule -/

/-- The local variables of `RRSchedule` living across iterations. -/
structure RRState where
  serviceTime : Int := 0
  totalWait : Int := 0
  totalTurnaround : Int := 0
  lastCompletion : Int := 0
  waitingTime : Int := 0
  ct : Nat := 0
  schedule : List Row := []
  gantt : List TimeSlice := []
  remProcesses : PMap := []
deriving Repr, DecidableEq, Inhabited

/-- Go `var timeQ int64 = 3` — the fixed round-robin time quantum. -/
def timeQ : Int := 3

/-- One iteration of the inner `for _, p := range processes` loop of
`RRSchedule`: skip if the process is no longer in `remProcesses`; otherwise
serve `min(remaining, quantum)` — run to completion and delete when the
remaining burst is `< timeQ`, else serve exactly `timeQ`, decrement, and
delete only when the decrement reaches zero. -/
def rrVisit (s : RRState) (p : Process) : Option RRState :=
  match pfind s.remProcesses p.processID with
  | none => some s
  | some process =>
    if s.ct < 100 then
      let waitingTime := s.serviceTime
      let start := waitingTime
      if process.burstDuration < timeQ then
        let completion := waitingTime + process.burstDuration
        let turnaround := completion - process.arrivalTime
        let row : Row :=
          ⟨process.processID, process.priority, process.burstDuration, process.arrivalTime,
            waitingTime, turnaround, completion⟩
        some { s with
          waitingTime := waitingTime
          totalWait := s.totalWait + waitingTime
          lastCompletion := completion
          totalTurnaround := s.totalTurnaround + turnaround
          schedule := s.schedule ++ [row]
          ct := s.ct + 1
          serviceTime := s.serviceTime + process.burstDuration
          gantt := s.gantt ++ [⟨process.processID, start, s.serviceTime + process.burstDuration⟩]
          remProcesses := perase s.remProcesses process.processID }
      else
        let burst := timeQ
        let completion := waitingTime + burst
        let turnaround := completion - process.arrivalTime
        let row : Row :=
          ⟨process.processID, process.priority, burst, process.arrivalTime,
            waitingTime, turnaround, completion⟩
        let updated := { process with burstDuration := process.burstDuration - burst }
        some { s with
          waitingTime := waitingTime
          totalWait := s.totalWait + waitingTime
          lastCompletion := completion
          totalTurnaround := s.totalTurnaround + turnaround
          schedule := s.schedule ++ [row]
          ct := s.ct + 1
          serviceTime := s.serviceTime + burst
          gantt := s.gantt ++ [⟨process.processID, start, s.serviceTime + burst⟩]
          remProcesses :=
            if updated.burstDuration = 0 then perase s.remProcesses process.processID
            else pinsert s.remProcesses process.processID updated }
    else none

/-- One pass of the inner loop over the whole (sorted) process slice. -/
def rrPass (ps : List Process) (s : RRState) : Option RRState :=
  match ps with
  | [] => some s
  | p :: rest => (rrVisit s p).bind (rrPass rest)

/-- The outer `for len(remProcesses) > 0` loop, with explicit fuel. -/
def rrLoop (fuel : Nat) (ps : List Process) (s : RRState) : Option RRState :=
  if s.remProcesses.isEmpty then some s
  else
    match fuel with
    | 0 => none
    | fuel2 + 1 => (rrPass ps s).bind (rrLoop fuel2 ps)

/-- Fuel that suffices for every terminating `RRSchedule` run: each pass
with a non-empty `remProcesses` either removes a process or decrements a
positive burst. -/
def rrFuel (ps : List Process) : Nat :=
  (ps.map (fun p => p.burstDuration.toNat)).sum + ps.length + 1

/-- The `RRSchedule` function: build `remProcesses` from the original order, sort the
caller slice in place by arrival time, then cycle over it. -/
def RRSchedule (ps : List Process) : Option RRState :=
  rrLoop (rrFuel ps) (sortByArrival ps) { remProcesses := buildLeft ps }

/-- The contents of the caller slice after `RRSchedule` returns:
`sort.Slice` sorted it in place by arrival time. -/
def rrFinalSlice (ps : List Process) : List Process := sortByArrival ps

/-- The contents of the caller slice after `FCFSSchedule` returns (the
function only ever reads `processes[i]`). -/
def fcfsFinalSlice (ps : List Process) : List Process := ps

/-- The contents of the caller slice after `SJFSchedule` returns (the
function reads the slice only to build its private maps). -/
def sjfFinalSlice (ps : List Process) : List Process := ps

/-- The contents of the caller slice after `SJFPrioritySchedule` returns
(the function reads the slice only to build its private maps). -/
def priFinalSlice (ps : List Process) : List Process := ps

/-- Go `aveThroughput := count / lastCompletion` with `count := float64(ct)`
in `RRSchedule`. -/
def RRState.throughput (s : RRState) : ℚ :=
  (s.ct : ℚ) / (s.lastCompletion : ℚ)

/-! ## Invariant machinery

Every row-emitting site of every scheduler appends one row and one Gantt
segment and updates `ct` and `lastCompletion` in lock step; the lemmas
below capture that shape once per site and compose it over the loops. -/

/-- The spec invariant for a report row: the Turnaround column equals the
Exit (completion) column minus the Arrival column.  In every scheduler the
Arrival column of a row holds the (unmodified) arrival time of the process
the row belongs to, so this is exactly the claimed
`turnaroundTime = completionTime - arrivalTime`. -/
def RowOk (r : Row) : Prop := r.turnaround = r.completion - r.arrival

instance : DecidablePred RowOk := fun r => by unfold RowOk; infer_instance

/-- The completion column of the last row of a list, `0` for the empty list
(the initial value of the `lastCompletion` accumulator). -/
def lastCompletionOf (l : List Row) : Int := (l.getLast?).elim 0 (·.completion)

/-- How a piece of a `SJFSchedule` / `SJFPrioritySchedule` run extends the
output state: rows and Gantt segments are appended, every appended row
satisfies `RowOk` and has a Gantt segment with its pid, `ct` counts the
appended rows, and `lastCompletion` tracks the last appended row. -/
def PreExtends (s s2 : PreState) : Prop :=
  ∃ new gnew, s2.schedule = s.schedule ++ new ∧ s2.gantt = s.gantt ++ gnew ∧
    (∀ r ∈ new, RowOk r ∧ ∃ g ∈ gnew, g.pid = r.pid) ∧
    s2.ct = s.ct + new.length ∧
    s2.lastCompletion = (new.getLast?).elim s.lastCompletion (·.completion)

/-- How a piece of an `RRSchedule` run extends the output state; on top of
the shared shape, every emitted row serves at most one time quantum. -/
def RRExtends (s s2 : RRState) : Prop :=
  ∃ new, s2.schedule = s.schedule ++ new ∧
    (∀ r ∈ new, RowOk r ∧ r.burst ≤ timeQ) ∧
    s2.ct = s.ct + new.length ∧
    s2.lastCompletion = (new.getLast?).elim s.lastCompletion (·.completion)

/-- The state produced by a successful `preemptBlock m a s`. -/
def preemptResult (m : PMap) (a : Int) (s : PreState) : PreState :=
  { s with
    waitingTime := s.start
    totalWait := s.totalWait + s.start
    lastCompletion := a
    totalTurnaround := s.totalTurnaround + (a - s.currProcess.arrivalTime)
    schedule := s.schedule ++
      [⟨s.currProcess.processID, s.currProcess.priority, a - s.start,
        s.currProcess.arrivalTime, s.start, a - s.currProcess.arrivalTime, a⟩]
    gantt := s.gantt ++ [⟨s.currProcess.processID, s.start, s.serviceTime⟩]
    processesLeft := pinsert s.processesLeft s.currProcess.processID
      { s.currProcess with burstDuration := s.currProcess.burstDuration - a }
    currProcess := plookup m a
    start := a
    ct := s.ct + 1 }

/-- The state produced by a successful `completeBlock m a s`. -/
def completeResult (m : PMap) (a : Int) (s : PreState) : PreState :=
  { s with
    waitingTime := s.start
    totalWait := s.totalWait + s.start
    lastCompletion := s.start + s.currProcess.burstDuration
    totalTurnaround := s.totalTurnaround +
      (s.start + s.currProcess.burstDuration - s.currProcess.arrivalTime)
    schedule := s.schedule ++
      [⟨s.currProcess.processID, s.currProcess.priority,
        s.start + s.currProcess.burstDuration - s.start, s.currProcess.arrivalTime, s.start,
        s.start + s.currProcess.burstDuration - s.currProcess.arrivalTime,
        s.start + s.currProcess.burstDuration⟩]
    serviceTime := s.start + s.currProcess.burstDuration
    gantt := s.gantt ++
      [⟨s.currProcess.processID, s.start, s.start + s.currProcess.burstDuration⟩]
    processesLeft := perase s.processesLeft s.currProcess.processID
    currProcess := plookup m a
    start := a
    ct := s.ct + 1 }

/-- The state produced by a successful non-skipped `rrVisit`, split on
whether the remaining burst is below the time quantum. -/
def rrVisitResult (s : RRState) (process : Process) : RRState :=
  if process.burstDuration < timeQ then
    { s with
      waitingTime := s.serviceTime
      totalWait := s.totalWait + s.serviceTime
      lastCompletion := s.serviceTime + process.burstDuration
      totalTurnaround := s.totalTurnaround +
        (s.serviceTime + process.burstDuration - process.arrivalTime)
      schedule := s.schedule ++
        [⟨process.processID, process.priority, process.burstDuration, process.arrivalTime,
          s.serviceTime, s.serviceTime + process.burstDuration - process.arrivalTime,
          s.serviceTime + process.burstDuration⟩]
      ct := s.ct + 1
      serviceTime := s.serviceTime + process.burstDuration
      gantt := s.gantt ++
        [⟨process.processID, s.serviceTime, s.serviceTime + process.burstDuration⟩]
      remProcesses := perase s.remProcesses process.processID }
  else
    { s with
      waitingTime := s.serviceTime
      totalWait := s.totalWait + s.serviceTime
      lastCompletion := s.serviceTime + timeQ
      totalTurnaround := s.totalTurnaround + (s.serviceTime + timeQ - process.arrivalTime)
      schedule := s.schedule ++
        [⟨process.processID, process.priority, timeQ, process.arrivalTime,
          s.serviceTime, s.serviceTime + timeQ - process.arrivalTime, s.serviceTime + timeQ⟩]
      ct := s.ct + 1
      serviceTime := s.serviceTime + timeQ
      gantt := s.gantt ++ [⟨process.processID, s.serviceTime, s.serviceTime + timeQ⟩]
      remProcesses :=
        if process.burstDuration - timeQ = 0 then perase s.remProcesses process.processID
        else pinsert s.remProcesses process.processID
          { process with burstDuration := process.burstDuration - timeQ } }

/-- Process `q` is the private working copy of input process `p`: the schedulers
only ever mutate the `BurstDuration` field of their copies, so id and
arrival identify the source process. -/
def SameIdent (q p : Process) : Prop :=
  q.processID = p.processID ∧ q.arrivalTime = p.arrivalTime

/-- The invariant maintained by the arrival loop of `SJFSchedule` and
`SJFPrioritySchedule`: the running process is a working copy of some input
process; every `processesLeft` entry is keyed by the id of an input process
and holds a working copy of it; the keys are pairwise distinct; and every
input process either still has its entry in `processesLeft` or already has
a report row. -/
def LoopInv (ps : List Process) (s : PreState) : Prop :=
  (∃ q ∈ ps, SameIdent s.currProcess q) ∧
  (∀ e ∈ s.processesLeft, ∃ p ∈ ps, e.1 = p.processID ∧ SameIdent e.2 p) ∧
  ((s.processesLeft.map (·.1)).Pairwise (· ≠ ·)) ∧
  (∀ p ∈ ps, (∃ q2, pfind s.processesLeft p.processID = some q2 ∧ SameIdent q2 p) ∨
    (∃ r ∈ s.schedule, r.pid = p.processID ∧ r.arrival = p.arrivalTime))

/-- The end-to-end example input of the spec:
`[{id:1, burst:5, arrival:0}, {id:2, burst:3, arrival:1}]`. -/
def demoA : List Process := [⟨1, 0, 5, 0⟩, ⟨2, 1, 3, 0⟩]

/-- Input refuting C3: process 1 `{arrival 0, burst 10}` runs and is
preempted at instant 2 by process 2 `{arrival 2, burst 5}`; process 3
`{arrival 4, burst 2}` then arrives while process 2 has executed 2 units. -/
def demo3 : List Process := [⟨1, 0, 10, 0⟩, ⟨2, 2, 5, 0⟩, ⟨3, 4, 2, 0⟩]

/-- Input refuting C7: two processes given in descending arrival order. -/
def demoB : List Process := [⟨1, 5, 2, 0⟩, ⟨2, 0, 2, 0⟩]

/-- Input refuting C10 as stated: two processes with pairwise-distinct
arrival times (0 and 5) but the same process id. -/
def demoC : List Process := [⟨1, 0, 10, 0⟩, ⟨1, 5, 20, 0⟩]

theorem preExtends_rfl (s : PreState) : PreExtends s s :=
  ⟨[], [], by simp, by simp, by simp, by simp, by simp⟩

theorem elim_getLast?_append {α β : Type} (l1 l2 : List α) (d : β) (f : α → β) :
    (((l1 ++ l2).getLast?).elim d f) = (l2.getLast?).elim ((l1.getLast?).elim d f) f := by
  rw [List.getLast?_append]
  cases h2 : l2.getLast? with
  | none => simp [Option.or]
  | some b => simp [Option.or]

theorem preExtends_trans {s1 s2 s3 : PreState}
    (h12 : PreExtends s1 s2) (h23 : PreExtends s2 s3) : PreExtends s1 s3 := by
  obtain ⟨n1, g1, hs1, hg1, hok1, hct1, hlc1⟩ := h12
  obtain ⟨n2, g2, hs2, hg2, hok2, hct2, hlc2⟩ := h23
  refine ⟨n1 ++ n2, g1 ++ g2, ?_, ?_, ?_, ?_, ?_⟩
  · rw [hs2, hs1, List.append_assoc]
  · rw [hg2, hg1, List.append_assoc]
  · intro r hr
    rcases List.mem_append.mp hr with h | h
    · obtain ⟨hok, g, hg, hpid⟩ := hok1 r h
      exact ⟨hok, g, List.mem_append.mpr (Or.inl hg), hpid⟩
    · obtain ⟨hok, g, hg, hpid⟩ := hok2 r h
      exact ⟨hok, g, List.mem_append.mpr (Or.inr hg), hpid⟩
  · rw [hct2, hct1, List.length_append, Nat.add_assoc]
  · rw [hlc2, elim_getLast?_append, hlc1]

/-- The `serviceTime` update at the top of the loop body does not touch the
output fields. -/
theorem preExtends_of_update_service {s : PreState} {x : Int} {s2 : PreState}
    (h : PreExtends { s with serviceTime := x } s2) : PreExtends s s2 := h

theorem preemptBlock_extends {m : PMap} {a : Int} {s s2 : PreState}
    (h : preemptBlock m a s = some s2) : PreExtends s s2 := by
  unfold preemptBlock at h
  split at h
  · injection h with h
    subst h
    exact ⟨[_], [_], rfl, rfl, by simp [RowOk], by simp, by simp⟩
  · exact absurd h (by simp)

theorem completeBlock_extends {m : PMap} {a : Int} {s s2 : PreState}
    (h : completeBlock m a s = some s2) : PreExtends s s2 := by
  unfold completeBlock at h
  split at h
  · injection h with h
    subst h
    exact ⟨[_], [_], rfl, rfl, by simp [RowOk], by simp, by simp⟩
  · exact absurd h (by simp)

theorem sjfStepBody_extends {m : PMap} {isLast : Bool} {a : Int} {s s2 : PreState}
    (h : sjfStepBody m isLast a s = some s2) : PreExtends s s2 := by
  unfold sjfStepBody at h
  split at h
  · exact preemptBlock_extends h
  · split at h
    · exact completeBlock_extends h
    · injection h with h
      subst h
      exact preExtends_rfl _

theorem sjfStep_extends {m : PMap} {isLast : Bool} {aPrev a : Int} {s s2 : PreState}
    (h : sjfStep m isLast aPrev a s = some s2) : PreExtends s s2 :=
  preExtends_of_update_service (sjfStepBody_extends h)

theorem priStepBody_extends {m : PMap} {isLast : Bool} {a : Int} {s s2 : PreState}
    (h : priStepBody m isLast a s = some s2) : PreExtends s s2 := by
  unfold priStepBody at h
  obtain ⟨s1, h1, h2⟩ := Option.bind_eq_some.mp h
  have hmid : PreExtends s s1 := by
    split at h1
    · exact preemptBlock_extends h1
    · injection h1 with h1; subst h1; exact preExtends_rfl _
  refine preExtends_trans hmid ?_
  split at h2
  · exact completeBlock_extends h2
  · injection h2 with h2; subst h2; exact preExtends_rfl _

theorem priStep_extends {m : PMap} {isLast : Bool} {aPrev a : Int} {s s2 : PreState}
    (h : priStep m isLast aPrev a s = some s2) : PreExtends s s2 :=
  preExtends_of_update_service (priStepBody_extends h)

theorem mainLoop_extends
    {step : PMap → Bool → Int → Int → PreState → Option PreState}
    (hstep : ∀ m isLast aPrev a s s2, step m isLast aPrev a s = some s2 → PreExtends s s2) :
    ∀ (rest : List Int) (m : PMap) (aPrev : Int) (s s2 : PreState),
      mainLoop step m aPrev rest s = some s2 → PreExtends s s2 := by
  intro rest
  induction rest with
  | nil =>
    intro m aPrev s s2 h
    injection h with h; subst h; exact preExtends_rfl _
  | cons a rest2 ih =>
    intro m aPrev s s2 h
    unfold mainLoop at h
    obtain ⟨s1, h1, h2⟩ := Option.bind_eq_some.mp h
    exact preExtends_trans (hstep _ _ _ _ _ _ h1) (ih _ _ _ _ h2)

theorem drainSingle_extends {p : Process} {s s2 : PreState}
    (h : drainSingle p s = some s2) : PreExtends s s2 := by
  unfold drainSingle at h
  split at h
  · injection h with h
    subst h
    exact ⟨[_], [_], rfl, rfl, by simp [RowOk], by simp, by simp⟩
  · exact absurd h (by simp)

theorem drainMultiOne_extends {am : PMap} {a : Int} {s s2 : PreState}
    (h : drainMultiOne am a s = some s2) : PreExtends s s2 := by
  unfold drainMultiOne at h
  split at h
  · injection h with h
    subst h
    exact ⟨[_], [_], rfl, rfl, by simp [RowOk], by simp, by simp⟩
  · exact absurd h (by simp)

theorem drainMulti_extends :
    ∀ (arrs : List Int) (am : PMap) (s s2 : PreState),
      drainMulti am arrs s = some s2 → PreExtends s s2 := by
  intro arrs
  induction arrs with
  | nil =>
    intro am s s2 h
    injection h with h; subst h; exact preExtends_rfl _
  | cons a rest ih =>
    intro am s s2 h
    unfold drainMulti at h
    obtain ⟨s1, h1, h2⟩ := Option.bind_eq_some.mp h
    exact preExtends_trans (drainMultiOne_extends h1) (ih _ _ _ h2)

theorem drainGroup_extends {g : GMap} {k : Int} {s s2 : PreState}
    (h : drainGroup g k s = some s2) : PreExtends s s2 := by
  unfold drainGroup at h
  split at h
  · exact drainSingle_extends h
  · exact drainMulti_extends _ _ _ _ h

theorem drainLoop_extends :
    ∀ (ks : List Int) (g : GMap) (s s2 : PreState),
      drainLoop g ks s = some s2 → PreExtends s s2 := by
  intro ks
  induction ks with
  | nil =>
    intro g s s2 h
    injection h with h; subst h; exact preExtends_rfl _
  | cons k rest ih =>
    intro g s s2 h
    unfold drainLoop at h
    obtain ⟨s1, h1, h2⟩ := Option.bind_eq_some.mp h
    exact preExtends_trans (drainGroup_extends h1) (ih _ _ _ h2)

theorem drainPhase_extends {key : Process → Int} {s s2 : PreState}
    (h : drainPhase key s = some s2) : PreExtends s s2 :=
  drainLoop_extends _ _ _ _ h

/-- Everything `preSchedule` promises about its output state, independent of
the step function used: rows all satisfy `RowOk`, each has a Gantt segment
with its pid, `ct` is the number of emitted rows, and `lastCompletion` is
the completion of the last emitted row. -/
theorem preSchedule_spec
    {step : PMap → Bool → Int → Int → PreState → Option PreState} {key : Process → Int}
    {ps : List Process} {out : PreState}
    (hstep : ∀ m isLast aPrev a s s2, step m isLast aPrev a s = some s2 → PreExtends s s2)
    (h : preSchedule step key ps = some out) :
    (∀ r ∈ out.schedule, RowOk r ∧ ∃ g ∈ out.gantt, g.pid = r.pid) ∧
      out.ct = out.schedule.length ∧
      out.lastCompletion = lastCompletionOf out.schedule := by
  unfold preSchedule at h
  split at h
  · exact absurd h (by simp)
  · obtain ⟨s1, h1, h2⟩ := Option.bind_eq_some.mp h
    have hext : PreExtends _ out :=
      preExtends_trans (mainLoop_extends hstep _ _ _ _ _ h1) (drainPhase_extends h2)
    obtain ⟨new, gnew, hs, hg, hok, hct, hlc⟩ := hext
    simp only [List.nil_append] at hs hg
    subst hs; subst hg
    refine ⟨fun r hr => ?_, by simpa using hct, by simpa [lastCompletionOf] using hlc⟩
    obtain ⟨hok2, g, hgm, hpid⟩ := hok r hr
    exact ⟨hok2, g, hgm, hpid⟩

theorem SJFSchedule_spec {ps : List Process} {out : PreState}
    (h : SJFSchedule ps = some out) :
    (∀ r ∈ out.schedule, RowOk r ∧ ∃ g ∈ out.gantt, g.pid = r.pid) ∧
      out.ct = out.schedule.length ∧
      out.lastCompletion = lastCompletionOf out.schedule :=
  preSchedule_spec (fun _ _ _ _ _ _ => sjfStep_extends) h

theorem SJFPrioritySchedule_spec {ps : List Process} {out : PreState}
    (h : SJFPrioritySchedule ps = some out) :
    (∀ r ∈ out.schedule, RowOk r ∧ ∃ g ∈ out.gantt, g.pid = r.pid) ∧
      out.ct = out.schedule.length ∧
      out.lastCompletion = lastCompletionOf out.schedule :=
  preSchedule_spec (fun _ _ _ _ _ _ => priStep_extends) h

theorem rrExtends_rfl (s : RRState) : RRExtends s s :=
  ⟨[], by simp, by simp, by simp, by simp⟩

theorem rrExtends_trans {s1 s2 s3 : RRState}
    (h12 : RRExtends s1 s2) (h23 : RRExtends s2 s3) : RRExtends s1 s3 := by
  obtain ⟨n1, hs1, hok1, hct1, hlc1⟩ := h12
  obtain ⟨n2, hs2, hok2, hct2, hlc2⟩ := h23
  refine ⟨n1 ++ n2, ?_, ?_, ?_, ?_⟩
  · rw [hs2, hs1, List.append_assoc]
  · intro r hr
    rcases List.mem_append.mp hr with h | h
    · exact hok1 r h
    · exact hok2 r h
  · rw [hct2, hct1, List.length_append, Nat.add_assoc]
  · rw [hlc2, elim_getLast?_append, hlc1]

theorem rrVisit_extends {s : RRState} {p : Process} {s2 : RRState}
    (h : rrVisit s p = some s2) : RRExtends s s2 := by
  unfold rrVisit at h
  split at h
  · injection h with h; subst h; exact rrExtends_rfl _
  · rename_i process hfind
    split at h
    · split at h
      · rename_i hlt
        injection h with h
        subst h
        refine ⟨[_], rfl, ?_, by simp, by simp⟩
        intro r hr
        simp only [List.mem_singleton] at hr
        subst hr
        exact ⟨by simp [RowOk], le_of_lt hlt⟩
      · injection h with h
        subst h
        refine ⟨[_], rfl, ?_, by simp, by simp⟩
        intro r hr
        simp only [List.mem_singleton] at hr
        subst hr
        exact ⟨by simp [RowOk], le_refl _⟩
    · exact absurd h (by simp)

theorem rrPass_extends :
    ∀ (ps : List Process) (s s2 : RRState), rrPass ps s = some s2 → RRExtends s s2 := by
  intro ps
  induction ps with
  | nil =>
    intro s s2 h
    injection h with h; subst h; exact rrExtends_rfl _
  | cons p rest ih =>
    intro s s2 h
    unfold rrPass at h
    obtain ⟨s1, h1, h2⟩ := Option.bind_eq_some.mp h
    exact rrExtends_trans (rrVisit_extends h1) (ih _ _ h2)

theorem rrLoop_extends :
    ∀ (fuel : Nat) (ps : List Process) (s s2 : RRState),
      rrLoop fuel ps s = some s2 → RRExtends s s2 := by
  intro fuel
  induction fuel with
  | zero =>
    intro ps s s2 h
    unfold rrLoop at h
    split at h
    · injection h with h; subst h; exact rrExtends_rfl _
    · exact absurd h (by simp)
  | succ fuel2 ih =>
    intro ps s s2 h
    unfold rrLoop at h
    split at h
    · injection h with h; subst h; exact rrExtends_rfl _
    · obtain ⟨s1, h1, h2⟩ := Option.bind_eq_some.mp h
      exact rrExtends_trans (rrPass_extends _ _ _ h1) (ih _ _ _ h2)

/-- Everything `RRSchedule` promises about its output state. -/
theorem RRSchedule_spec {ps : List Process} {out : RRState}
    (h : RRSchedule ps = some out) :
    (∀ r ∈ out.schedule, RowOk r ∧ r.burst ≤ timeQ) ∧
      out.ct = out.schedule.length ∧
      out.lastCompletion = lastCompletionOf out.schedule := by
  have hext := rrLoop_extends _ _ _ _ h
  obtain ⟨new, hs, hok, hct, hlc⟩ := hext
  simp only [List.nil_append] at hs
  subst hs
  exact ⟨hok, by simpa using hct, by simpa [lastCompletionOf] using hlc⟩

/-! ### FCFS fold lemmas -/

theorem fcfsStep_schedule (s : FCFSState) (p : Process) :
    (fcfsStep s p).schedule = s.schedule ++
      [⟨p.processID, p.priority, p.burstDuration, p.arrivalTime,
        if p.arrivalTime > 0 then s.serviceTime - p.arrivalTime else s.waitingTime,
        p.burstDuration + (if p.arrivalTime > 0 then s.serviceTime - p.arrivalTime else s.waitingTime),
        p.burstDuration + p.arrivalTime +
          (if p.arrivalTime > 0 then s.serviceTime - p.arrivalTime else s.waitingTime)⟩] := rfl

theorem fcfs_foldl_len :
    ∀ (l : List Process) (s : FCFSState),
      (List.foldl fcfsStep s l).schedule.length = s.schedule.length + l.length := by
  intro l
  induction l with
  | nil => intro s; simp
  | cons p rest ih =>
    intro s
    rw [List.foldl_cons, ih, fcfsStep_schedule]
    simp only [List.length_append, List.length_cons, List.length_nil]
    omega

theorem fcfs_foldl_service :
    ∀ (l : List Process) (s : FCFSState),
      (List.foldl fcfsStep s l).serviceTime = s.serviceTime + (l.map (·.burstDuration)).sum := by
  intro l
  induction l with
  | nil => intro s; simp
  | cons p rest ih =>
    intro s
    rw [List.foldl_cons, ih]
    simp only [fcfsStep, List.map_cons, List.sum_cons]
    ring

theorem fcfs_foldl_rowok :
    ∀ (l : List Process) (s : FCFSState), (∀ r ∈ s.schedule, RowOk r) →
      ∀ r ∈ (List.foldl fcfsStep s l).schedule, RowOk r := by
  intro l
  induction l with
  | nil => intro s hs; exact hs
  | cons p rest ih =>
    intro s hs
    rw [List.foldl_cons]
    apply ih
    rw [fcfsStep_schedule]
    intro r hr
    rcases List.mem_append.mp hr with h | h
    · exact hs r h
    · simp only [List.mem_singleton] at h
      subst h
      simp only [RowOk]
      ring

/-- The `waitingTime` accumulator of FCFS always holds the Wait column of
the last emitted row (`0` before the first row), and `lastCompletion` the
Exit column of the last row. -/
theorem fcfs_foldl_wait_last :
    ∀ (l : List Process) (s : FCFSState),
      s.waitingTime = (s.schedule.getLast?).elim 0 (·.waiting) →
      s.lastCompletion = (s.schedule.getLast?).elim 0 (·.completion) →
      (List.foldl fcfsStep s l).waitingTime =
          (((List.foldl fcfsStep s l).schedule.getLast?).elim 0 (·.waiting)) ∧
        (List.foldl fcfsStep s l).lastCompletion =
          (((List.foldl fcfsStep s l).schedule.getLast?).elim 0 (·.completion)) := by
  intro l
  induction l with
  | nil => intro s hw hc; exact ⟨hw, hc⟩
  | cons p rest ih =>
    intro s hw hc
    rw [List.foldl_cons]
    apply ih
    · rw [fcfsStep_schedule, List.getLast?_concat]
      rfl
    · rw [fcfsStep_schedule, List.getLast?_concat]
      rfl

/-- The FCFS loop only appends rows, so already-emitted rows keep their
index. -/
theorem fcfs_foldl_getElem :
    ∀ (l : List Process) (s : FCFSState) (n : Nat), n < s.schedule.length →
      (List.foldl fcfsStep s l).schedule[n]? = s.schedule[n]? := by
  intro l
  induction l with
  | nil => intro s n _; rfl
  | cons p rest ih =>
    intro s n hn
    rw [List.foldl_cons]
    rw [ih]
    · rw [fcfsStep_schedule, List.getElem?_append_left hn]
    · rw [fcfsStep_schedule, List.length_append]
      omega

/-! ## Claims -/

/-- C1: for every input process list and each of the four algorithms
(FCFSSchedule, SJFSchedule, SJFPrioritySchedule, RRSchedule), every emitted
report row satisfies `turnaroundTime = completionTime - arrivalTime`, where
the Arrival column of a row always holds the arrival time of the process
the row belongs to (the schedulers never modify the `ArrivalTime` field of
a process value).  For the three schedulers that can panic (fixed 100-row
buffer, or hitting the fuel bound of the round-robin model) the statement
quantifies over the completed runs. -/
theorem claim1_turnaround_invariant (ps : List Process) :
    (∀ r ∈ (fcfsRun ps).schedule, RowOk r) ∧
    (∀ out, SJFSchedule ps = some out → ∀ r ∈ out.schedule, RowOk r) ∧
    (∀ out, SJFPrioritySchedule ps = some out → ∀ r ∈ out.schedule, RowOk r) ∧
    (∀ out, RRSchedule ps = some out → ∀ r ∈ out.schedule, RowOk r) := by
  refine ⟨?_, ?_, ?_, ?_⟩
  · intro r hr
    refine fcfs_foldl_rowok ps {} ?_ r hr
    intro r2 hr2
    exact absurd hr2 (List.not_mem_nil r2)
  · intro out h r hr
    exact ((SJFSchedule_spec h).1 r hr).1
  · intro out h r hr
    exact ((SJFPrioritySchedule_spec h).1 r hr).1
  · intro out h r hr
    exact ((RRSchedule_spec h).1 r hr).1

theorem claim1_turnaround_invariant_witness :
    RowOk ((fcfsRun demoA).schedule.headI) ∧
    RowOk (((SJFSchedule demoA).getD default).schedule.headI) ∧
    RowOk (((SJFPrioritySchedule demoA).getD default).schedule.headI) ∧
    RowOk (((RRSchedule demoA).getD default).schedule.headI) :=
  ⟨(claim1_turnaround_invariant demoA).1 _ (by decide),
    (claim1_turnaround_invariant demoA).2.1 ((SJFSchedule demoA).getD default)
      (by decide) _ (by decide),
    (claim1_turnaround_invariant demoA).2.2.1 ((SJFPrioritySchedule demoA).getD default)
      (by decide) _ (by decide),
    (claim1_turnaround_invariant demoA).2.2.2 ((RRSchedule demoA).getD default)
      (by decide) _ (by decide)⟩

/-- C2: on input `[{id:1, burst:5, arrival:0}, {id:2, burst:3, arrival:1}]`,
`FCFSSchedule` emits exactly two rows: process 1 with wait 0, turnaround 5,
completion 5; process 2 with wait 4, turnaround 7, completion 8. -/
theorem claim2_fcfs_example :
    (fcfsRun demoA).schedule =
      [⟨1, 0, 5, 0, 0, 5, 5⟩, ⟨2, 0, 3, 1, 4, 7, 8⟩] := by decide

/-- C5: in `FCFSSchedule` the `waitingTime` accumulator is updated — to the
cumulative service time minus the arrival time — only when the arrival time
is strictly positive; a process with arrival time 0 at any position reuses
the accumulator value left by the previous iteration (which always equals
the Wait column of the previous row, 0 before the first row). -/
theorem claim5_fcfs_waiting_accumulator (ps rest : List Process) (p : Process) :
    (fcfsRun (ps ++ p :: rest)).schedule[ps.length]? =
      some ⟨p.processID, p.priority, p.burstDuration, p.arrivalTime,
        (if p.arrivalTime > 0 then (fcfsRun ps).serviceTime - p.arrivalTime
          else (fcfsRun ps).waitingTime),
        p.burstDuration +
          (if p.arrivalTime > 0 then (fcfsRun ps).serviceTime - p.arrivalTime
            else (fcfsRun ps).waitingTime),
        p.burstDuration + p.arrivalTime +
          (if p.arrivalTime > 0 then (fcfsRun ps).serviceTime - p.arrivalTime
            else (fcfsRun ps).waitingTime)⟩ ∧
    (fcfsRun ps).serviceTime = (ps.map (·.burstDuration)).sum ∧
    (fcfsRun ps).waitingTime = (((fcfsRun ps).schedule.getLast?).elim 0 (·.waiting)) := by
  have hlen : (fcfsRun ps).schedule.length = ps.length := by
    have := fcfs_foldl_len ps {}
    simpa [fcfsRun] using this
  refine ⟨?_, ?_, ?_⟩
  · have hsplit : fcfsRun (ps ++ p :: rest) =
        List.foldl fcfsStep (fcfsStep (fcfsRun ps) p) rest := by
      unfold fcfsRun
      rw [List.foldl_append, List.foldl_cons]
    have hb : ps.length < (fcfsStep (fcfsRun ps) p).schedule.length := by
      rw [fcfsStep_schedule, List.length_append, hlen]
      simp
    rw [hsplit, fcfs_foldl_getElem rest _ ps.length hb, fcfsStep_schedule,
      List.getElem?_append_right (by omega), hlen]
    simp
  · have := fcfs_foldl_service ps {}
    simpa [fcfsRun] using this
  · exact (fcfs_foldl_wait_last ps {} (by simp) (by simp)).1

/-- C6: for every algorithm, the reported throughput equals
`rowCount / lastCompletionTime`: the tracked `lastCompletion` always equals
the Exit column of the last emitted row, and the divisor-side count —
`len(processes)` for FCFS (one row per process), `ct` for the other three —
equals the number of emitted report rows (one per executed span, not one
per distinct process). -/
theorem claim6_throughput (ps : List Process) :
    (((fcfsRun ps).schedule.length : Int) = fcfsCount ps ∧
      (fcfsRun ps).lastCompletion = lastCompletionOf (fcfsRun ps).schedule ∧
      fcfsThroughput ps =
        ((fcfsRun ps).schedule.length : ℚ) / (lastCompletionOf (fcfsRun ps).schedule : ℚ)) ∧
    (∀ out, SJFSchedule ps = some out →
      out.ct = out.schedule.length ∧ out.lastCompletion = lastCompletionOf out.schedule ∧
        out.throughput = (out.schedule.length : ℚ) / (lastCompletionOf out.schedule : ℚ)) ∧
    (∀ out, SJFPrioritySchedule ps = some out →
      out.ct = out.schedule.length ∧ out.lastCompletion = lastCompletionOf out.schedule ∧
        out.throughput = (out.schedule.length : ℚ) / (lastCompletionOf out.schedule : ℚ)) ∧
    (∀ out, RRSchedule ps = some out →
      out.ct = out.schedule.length ∧ out.lastCompletion = lastCompletionOf out.schedule ∧
        out.throughput = (out.schedule.length : ℚ) / (lastCompletionOf out.schedule : ℚ)) := by
  have hlen : (fcfsRun ps).schedule.length = ps.length := by
    have := fcfs_foldl_len ps {}
    simpa [fcfsRun] using this
  have hlc : (fcfsRun ps).lastCompletion = lastCompletionOf (fcfsRun ps).schedule :=
    (fcfs_foldl_wait_last ps {} (by simp) (by simp)).2
  refine ⟨⟨by rw [hlen]; rfl, hlc, ?_⟩, ?_, ?_, ?_⟩
  · unfold fcfsThroughput fcfsCount
    rw [hlc, ← hlen]
    norm_num
  · intro out h
    obtain ⟨_, hct, hl⟩ := SJFSchedule_spec h
    exact ⟨hct, hl, by unfold PreState.throughput; rw [hct, hl]⟩
  · intro out h
    obtain ⟨_, hct, hl⟩ := SJFPrioritySchedule_spec h
    exact ⟨hct, hl, by unfold PreState.throughput; rw [hct, hl]⟩
  · intro out h
    obtain ⟨_, hct, hl⟩ := RRSchedule_spec h
    exact ⟨hct, hl, by unfold RRState.throughput; rw [hct, hl]⟩

theorem claim6_throughput_witness :
    ((SJFSchedule demoA).getD default).ct = ((SJFSchedule demoA).getD default).schedule.length ∧
    ((SJFPrioritySchedule demoA).getD default).ct =
      ((SJFPrioritySchedule demoA).getD default).schedule.length ∧
    ((RRSchedule demoA).getD default).ct = ((RRSchedule demoA).getD default).schedule.length :=
  ⟨((claim6_throughput demoA).2.1 _ (by decide)).1,
    ((claim6_throughput demoA).2.2.1 _ (by decide)).1,
    ((claim6_throughput demoA).2.2.2 _ (by decide)).1⟩

/-- C9 counterexample: on an input of zero processes, `SJFSchedule` and
`SJFPrioritySchedule` do NOT reach their aggregate computation: both read
`aTimesMap[aTimeNums[0]]` and panic with an index-out-of-range on the empty
`aTimeNums` slice (modelled as `none`), a failure before the aggregate
step.  This refutes the claim that every algorithm reaches its aggregates
with no other failure. -/
theorem claim9_counterexample :
    SJFSchedule [] = none ∧ SJFPrioritySchedule [] = none := by decide

/-- C9 amended: on an input of zero processes, `FCFSSchedule` and
`RRSchedule` reach their aggregate computation with a zero row count and
zero totals, so all three aggregate metrics are the division `0 / 0`
(IEEE-754 NaN on `float64`); `SJFSchedule` and `SJFPrioritySchedule`
instead panic on `aTimeNums[0]` before any aggregate computation. -/
theorem claim9_amended :
    (fcfsCount [] = 0 ∧ (fcfsRun []).totalWait = 0 ∧ (fcfsRun []).totalTurnaround = 0 ∧
      (fcfsRun []).lastCompletion = 0) ∧
    ((RRSchedule []).map (fun out =>
        (out.ct, out.totalWait, out.totalTurnaround, out.lastCompletion)) =
      some (0, 0, 0, 0)) ∧
    SJFSchedule [] = none ∧ SJFPrioritySchedule [] = none := by decide

/-! ### Explicit descriptions of the branch results -/

theorem preemptBlock_eq {m : PMap} {a : Int} {s : PreState} (h : s.ct < 100) :
    preemptBlock m a s = some (preemptResult m a s) := by
  unfold preemptBlock preemptResult
  rw [if_pos h]

theorem completeBlock_eq {m : PMap} {a : Int} {s : PreState} (h : s.ct < 100) :
    completeBlock m a s = some (completeResult m a s) := by
  unfold completeBlock completeResult
  rw [if_pos h]

theorem sjfStepBody_preempt {m : PMap} {isLast : Bool} {a : Int} {s : PreState}
    (hct : s.ct < 100)
    (hcond : s.currProcess.burstDuration - a > (plookup m a).burstDuration) :
    sjfStepBody m isLast a s = some (preemptResult m a s) := by
  unfold sjfStepBody
  rw [if_pos hcond]
  exact preemptBlock_eq hct

theorem priStepBody_preempt {m : PMap} {isLast : Bool} {a : Int} {s : PreState}
    (hct : s.ct + 1 < 100)
    (hp : (plookup m a).priority < s.currProcess.priority) :
    priStepBody m isLast a s =
      some (if (plookup m a).arrivalTime + (plookup m a).burstDuration ≤ a ∨ isLast = true
        then completeResult m a (preemptResult m a s)
        else preemptResult m a s) := by
  have hct0 : s.ct < 100 := Nat.lt_of_succ_lt hct
  unfold priStepBody
  rw [if_pos hp, preemptBlock_eq hct0]
  simp only [Option.some_bind]
  split
  · rename_i h
    rw [completeBlock_eq (show (preemptResult m a s).ct < 100 from hct)]
    rw [if_pos (show (plookup m a).arrivalTime + (plookup m a).burstDuration ≤ a ∨
      isLast = true from h)]
  · rename_i h
    rw [if_neg (show ¬((plookup m a).arrivalTime + (plookup m a).burstDuration ≤ a ∨
      isLast = true) from h)]

/-- C3 counterexample: on `demo3`, process 3 arrives at instant 4 with total
burst 2, strictly smaller than the running process 2's remaining burst
computed via elapsed time since it started, `5 - (4 - 2) = 3`.  The claim
demands a preemption row for process 2 at instant 4; instead `SJFSchedule`
(whose test subtracts the absolute arrival instant, `5 - 4 = 1 > 2` fails)
emits a completion row for process 2 with completion 7, and no row of the
run has pid 2 with completion 4. -/
theorem claim3_counterexample :
    ((2 : Int) < 5 - (4 - 2)) ∧
    ((SJFSchedule demo3).map (·.schedule) =
      some [⟨1, 0, 2, 0, 0, 2, 2⟩, ⟨2, 0, 5, 2, 2, 5, 7⟩, ⟨3, 0, 2, 4, 7, 5, 9⟩,
        ⟨1, 0, 8, 0, 9, 17, 17⟩]) ∧
    ((SJFSchedule demo3).map
      (fun out => out.schedule.all (fun r => !(r.pid == 2 && r.completion == 4))) =
      some true) := by decide

/-- C3 amended: in `SJFSchedule`, at each arrival iteration after the first,
the running process is preempted exactly under the code's test — the new
arrival's total burst is strictly smaller than the running process's stored
burst minus the **absolute arrival instant** `a` (not minus the elapsed
time since the running process started) — and on preemption a row for the
span executed so far (`a - start`) is emitted and the stored remaining
burst is reduced by the absolute instant `a` (not by the executed span),
before the new arrival becomes the running process. -/
theorem claim3_amended (m : PMap) (isLast : Bool) (aPrev a : Int) (s : PreState)
    (hct : s.ct < 100)
    (hcond : s.currProcess.burstDuration - a > (plookup m a).burstDuration) :
    sjfStep m isLast aPrev a s = some (preemptResult m a (stepState aPrev a s)) ∧
    preemptResult m a (stepState aPrev a s) =
      { serviceTime := s.serviceTime + (a - aPrev)
        totalWait := s.totalWait + s.start
        totalTurnaround := s.totalTurnaround + (a - s.currProcess.arrivalTime)
        lastCompletion := a
        waitingTime := s.start
        ct := s.ct + 1
        schedule := s.schedule ++
          [⟨s.currProcess.processID, s.currProcess.priority, a - s.start,
            s.currProcess.arrivalTime, s.start, a - s.currProcess.arrivalTime, a⟩]
        gantt := s.gantt ++ [⟨s.currProcess.processID, s.start, s.serviceTime + (a - aPrev)⟩]
        currProcess := plookup m a
        start := a
        processesLeft := pinsert s.processesLeft s.currProcess.processID
          { s.currProcess with burstDuration := s.currProcess.burstDuration - a } } :=
  ⟨sjfStepBody_preempt hct hcond, rfl⟩

theorem claim3_amended_witness :
    sjfStep [((4 : Int), (⟨3, 4, 2, 0⟩ : Process))] true 2 4
        { serviceTime := 2, totalWait := 0, totalTurnaround := 2, lastCompletion := 2,
          waitingTime := 0, ct := 1, schedule := [], gantt := [],
          currProcess := ⟨2, 2, 10, 0⟩, start := 2, processesLeft := [(2, ⟨2, 2, 10, 0⟩)] } =
      some (preemptResult [((4 : Int), (⟨3, 4, 2, 0⟩ : Process))] 4
        (stepState 2 4
          { serviceTime := 2, totalWait := 0, totalTurnaround := 2, lastCompletion := 2,
            waitingTime := 0, ct := 1, schedule := [], gantt := [],
            currProcess := ⟨2, 2, 10, 0⟩, start := 2,
            processesLeft := [(2, ⟨2, 2, 10, 0⟩)] })) :=
  (claim3_amended _ true 2 4 _ (by decide) (by decide)).1

theorem rrVisit_eq {s : RRState} {p process : Process}
    (hfind : pfind s.remProcesses p.processID = some process) (hct : s.ct < 100) :
    rrVisit s p = some (rrVisitResult s process) := by
  unfold rrVisit rrVisitResult
  rw [hfind]
  dsimp only
  rw [if_pos hct]
  split <;> rfl

/-- C4 counterexample: a process whose remaining burst equals the quantum
(3) is NOT requeued after its visit: `rrVisit` removes it from
`remProcesses` (the decrement reaches 0), and the whole `RRSchedule` run on
`[{id:1, burst:3, arrival:0}]` emits exactly one row, where the claim's
"otherwise ... it is requeued" (for every remaining burst not `< 3`) would
put it back in the ready set. -/
theorem claim4_counterexample :
    (¬((3 : Int) < timeQ)) ∧
    ((rrVisit { remProcesses := [(1, ⟨1, 0, 3, 0⟩)] } ⟨1, 0, 3, 0⟩).map
      (fun s2 => (s2.schedule.length, s2.remProcesses)) = some (1, [])) ∧
    ((RRSchedule [⟨1, 0, 3, 0⟩]).map (fun out => (out.schedule.length, out.remProcesses)) =
      some (1, [])) := by decide

/-- C4 amended: in `RRSchedule` (fixed quantum 3) no emitted row serves more
than 3 units; on each visit a process with remaining burst `< 3` runs to
completion and is removed, otherwise it runs exactly 3 units and its
remaining burst is decremented — it is requeued only when the decrement is
non-zero, and removed when the decrement reaches exactly 0; a process with
total burst 7 yields exactly three rows with served amounts 3, 3, 1. -/
theorem claim4_amended :
    (∀ ps out, RRSchedule ps = some out → ∀ r ∈ out.schedule, r.burst ≤ timeQ) ∧
    (∀ s p process, pfind s.remProcesses p.processID = some process → s.ct < 100 →
      rrVisit s p = some (rrVisitResult s process)) ∧
    (∀ (s : RRState) (process : Process), process.burstDuration < timeQ →
      (rrVisitResult s process).schedule = s.schedule ++
        [⟨process.processID, process.priority, process.burstDuration, process.arrivalTime,
          s.serviceTime, s.serviceTime + process.burstDuration - process.arrivalTime,
          s.serviceTime + process.burstDuration⟩] ∧
      (rrVisitResult s process).remProcesses = perase s.remProcesses process.processID) ∧
    (∀ (s : RRState) (process : Process), ¬process.burstDuration < timeQ →
      (rrVisitResult s process).schedule = s.schedule ++
        [⟨process.processID, process.priority, timeQ, process.arrivalTime,
          s.serviceTime, s.serviceTime + timeQ - process.arrivalTime,
          s.serviceTime + timeQ⟩] ∧
      (rrVisitResult s process).remProcesses =
        (if process.burstDuration - timeQ = 0 then perase s.remProcesses process.processID
          else pinsert s.remProcesses process.processID
            { process with burstDuration := process.burstDuration - timeQ })) ∧
    ((RRSchedule [⟨1, 0, 7, 0⟩]).map (fun out => out.schedule.map (·.burst)) =
      some [3, 3, 1]) := by
  refine ⟨?_, ?_, ?_, ?_, by decide⟩
  · intro ps out h r hr
    exact ((RRSchedule_spec h).1 r hr).2
  · intro s p process hfind hct
    exact rrVisit_eq hfind hct
  · intro s process hlt
    unfold rrVisitResult
    rw [if_pos hlt]
    exact ⟨rfl, rfl⟩
  · intro s process hlt
    unfold rrVisitResult
    rw [if_neg hlt]
    exact ⟨rfl, rfl⟩

theorem claim4_amended_witness :
    (rrVisit { remProcesses := [(1, ⟨1, 0, 3, 0⟩)] } ⟨1, 0, 3, 0⟩ =
      some (rrVisitResult { remProcesses := [(1, ⟨1, 0, 3, 0⟩)] } ⟨1, 0, 3, 0⟩)) ∧
    ((rrVisitResult { remProcesses := [(1, ⟨1, 0, 3, 0⟩)] } ⟨1, 0, 3, 0⟩).remProcesses =
      (if (3 : Int) - timeQ = 0
        then perase [(1, ⟨1, 0, 3, 0⟩)] 1
        else pinsert [(1, ⟨1, 0, 3, 0⟩)] 1 ⟨1, 0, 0, 0⟩)) ∧
    (((RRSchedule [⟨1, 0, 7, 0⟩]).getD default).schedule.headI.burst ≤ timeQ) :=
  ⟨claim4_amended.2.1 _ ⟨1, 0, 3, 0⟩ ⟨1, 0, 3, 0⟩ (by decide) (by decide),
    (claim4_amended.2.2.2.1 { remProcesses := [(1, ⟨1, 0, 3, 0⟩)] } ⟨1, 0, 3, 0⟩ (by decide)).2,
    claim4_amended.1 [⟨1, 0, 7, 0⟩] ((RRSchedule [⟨1, 0, 7, 0⟩]).getD default)
      (by decide) _ (by decide)⟩

/-! ### Insertion-sort lemmas for the caller-slice claim -/

theorem insertByArrival_perm (x : Process) :
    ∀ l : List Process, (insertByArrival x l).Perm (x :: l) := by
  intro l
  induction l with
  | nil => exact List.Perm.refl _
  | cons y ys ih =>
    unfold insertByArrival
    split
    · exact List.Perm.refl _
    · exact (List.Perm.cons y ih).trans (List.Perm.swap x y ys)

theorem sortByArrival_perm : ∀ l : List Process, (sortByArrival l).Perm l := by
  intro l
  induction l with
  | nil => exact List.Perm.refl _
  | cons x xs ih =>
    unfold sortByArrival
    exact (insertByArrival_perm x (sortByArrival xs)).trans (List.Perm.cons x ih)

theorem insertByArrival_pairwise (x : Process) :
    ∀ l : List Process, l.Pairwise (fun a b => a.arrivalTime ≤ b.arrivalTime) →
      (insertByArrival x l).Pairwise (fun a b => a.arrivalTime ≤ b.arrivalTime) := by
  intro l
  induction l with
  | nil =>
    intro _
    simp [insertByArrival]
  | cons y ys ih =>
    intro hp
    rw [List.pairwise_cons] at hp
    obtain ⟨hy, hys⟩ := hp
    unfold insertByArrival
    split
    · rename_i hlt
      rw [List.pairwise_cons]
      refine ⟨?_, List.pairwise_cons.mpr ⟨hy, hys⟩⟩
      intro z hz
      rcases List.mem_cons.mp hz with h | h
      · subst h
        exact le_of_lt hlt
      · exact le_trans (le_of_lt hlt) (hy z h)
    · rename_i hnlt
      rw [List.pairwise_cons]
      refine ⟨?_, ih hys⟩
      intro z hz
      have hmem := (insertByArrival_perm x ys).mem_iff.mp hz
      rcases List.mem_cons.mp hmem with h | h
      · subst h
        exact le_of_not_lt hnlt
      · exact hy z h

theorem sortByArrival_pairwise :
    ∀ l : List Process,
      (sortByArrival l).Pairwise (fun a b => a.arrivalTime ≤ b.arrivalTime) := by
  intro l
  induction l with
  | nil => simp [sortByArrival]
  | cons x xs ih =>
    unfold sortByArrival
    exact insertByArrival_pairwise x _ ih

/-- C7 counterexample: `RRSchedule` sorts the caller slice in place
(`sort.Slice` on `processes`); on `demoB`, whose two processes arrive at
times 5 and 0, the slice contents after the call differ from the contents
before the call, refuting that no algorithm mutates the input slice. -/
theorem claim7_counterexample : rrFinalSlice demoB ≠ demoB := by decide

/-- C7 amended: `FCFSSchedule`, `SJFSchedule` and `SJFPrioritySchedule` only
read the input slice, which therefore holds the same values in the same
order after the call; `RRSchedule`, however, sorts the caller slice in
place by arrival time before cycling, so afterwards the slice holds a
permutation of the original process values ordered by non-decreasing
arrival time (the preempting algorithms mutate remaining bursts only on
private copies inside their own maps). -/
theorem claim7_amended (ps : List Process) :
    fcfsFinalSlice ps = ps ∧ sjfFinalSlice ps = ps ∧ priFinalSlice ps = ps ∧
    (rrFinalSlice ps).Perm ps ∧
    (rrFinalSlice ps).Pairwise (fun a b => a.arrivalTime ≤ b.arrivalTime) :=
  ⟨rfl, rfl, rfl, sortByArrival_perm ps, sortByArrival_pairwise ps⟩

/-- C8: in `SJFPrioritySchedule`, whenever a process arrives whose priority
value is strictly smaller than the running process's priority value, the
running process is preempted at that arrival instant — independent of
either process's remaining burst: the iteration emits the preemption row
for the running process (completion column = the arrival instant `a`,
burst column = the span `a - start`) and the new arrival becomes the
running process (both when the same iteration's independent completion
test then also fires, and when it does not). -/
theorem claim8_priority_preemption (m : PMap) (isLast : Bool) (aPrev a : Int) (s : PreState)
    (hct : s.ct + 1 < 100)
    (hp : (plookup m a).priority < s.currProcess.priority) :
    priStep m isLast aPrev a s =
      some (if (plookup m a).arrivalTime + (plookup m a).burstDuration ≤ a ∨ isLast = true
        then completeResult m a (preemptResult m a (stepState aPrev a s))
        else preemptResult m a (stepState aPrev a s)) ∧
    (preemptResult m a (stepState aPrev a s)).schedule = s.schedule ++
      [⟨s.currProcess.processID, s.currProcess.priority, a - s.start,
        s.currProcess.arrivalTime, s.start, a - s.currProcess.arrivalTime, a⟩] ∧
    (preemptResult m a (stepState aPrev a s)).currProcess = plookup m a ∧
    (completeResult m a (preemptResult m a (stepState aPrev a s))).schedule.take
        (s.schedule.length + 1) = s.schedule ++
      [⟨s.currProcess.processID, s.currProcess.priority, a - s.start,
        s.currProcess.arrivalTime, s.start, a - s.currProcess.arrivalTime, a⟩] ∧
    (completeResult m a (preemptResult m a (stepState aPrev a s))).currProcess =
      plookup m a := by
  refine ⟨priStepBody_preempt hct hp, rfl, rfl, ?_, rfl⟩
  have h4 : (completeResult m a (preemptResult m a (stepState aPrev a s))).schedule =
      (s.schedule ++
        [⟨s.currProcess.processID, s.currProcess.priority, a - s.start,
          s.currProcess.arrivalTime, s.start, a - s.currProcess.arrivalTime, a⟩]) ++
      [⟨(plookup m a).processID, (plookup m a).priority,
        a + (plookup m a).burstDuration - a, (plookup m a).arrivalTime, a,
        a + (plookup m a).burstDuration - (plookup m a).arrivalTime,
        a + (plookup m a).burstDuration⟩] := rfl
  rw [h4, List.take_left' (by simp)]

theorem claim8_priority_preemption_witness :
    priStep [((4 : Int), (⟨3, 4, 9, 1⟩ : Process))] false 2 4
        { serviceTime := 2, totalWait := 0, totalTurnaround := 2, lastCompletion := 2,
          waitingTime := 0, ct := 1, schedule := [], gantt := [],
          currProcess := ⟨2, 2, 5, 7⟩, start := 2, processesLeft := [(2, ⟨2, 2, 5, 7⟩)] } =
      some (if (plookup [((4 : Int), (⟨3, 4, 9, 1⟩ : Process))] 4).arrivalTime +
            (plookup [((4 : Int), (⟨3, 4, 9, 1⟩ : Process))] 4).burstDuration ≤ 4 ∨
            false = true
        then completeResult [((4 : Int), (⟨3, 4, 9, 1⟩ : Process))] 4
          (preemptResult [((4 : Int), (⟨3, 4, 9, 1⟩ : Process))] 4
            (stepState 2 4
              { serviceTime := 2, totalWait := 0, totalTurnaround := 2, lastCompletion := 2,
                waitingTime := 0, ct := 1, schedule := [], gantt := [],
                currProcess := ⟨2, 2, 5, 7⟩, start := 2,
                processesLeft := [(2, ⟨2, 2, 5, 7⟩)] }))
        else preemptResult [((4 : Int), (⟨3, 4, 9, 1⟩ : Process))] 4
          (stepState 2 4
            { serviceTime := 2, totalWait := 0, totalTurnaround := 2, lastCompletion := 2,
              waitingTime := 0, ct := 1, schedule := [], gantt := [],
              currProcess := ⟨2, 2, 5, 7⟩, start := 2,
              processesLeft := [(2, ⟨2, 2, 5, 7⟩)] })) :=
  (claim8_priority_preemption _ false 2 4 _ (by decide) (by decide)).1

/-! ### Association-list map lemmas (for the per-process coverage claim) -/

theorem pfind_pinsert_self : ∀ (m : PMap) (k : Int) (v : Process),
    pfind (pinsert m k v) k = some v := by
  intro m k v
  induction m with
  | nil => simp [pinsert, pfind]
  | cons e rest ih =>
    obtain ⟨k2, v2⟩ := e
    unfold pinsert
    by_cases h : k = k2
    · rw [if_pos h]
      simp [pfind, h]
    · rw [if_neg h]
      simp only [pfind, if_neg h]
      exact ih

theorem pfind_pinsert_ne {a k : Int} (h : a ≠ k) : ∀ (m : PMap) (v : Process),
    pfind (pinsert m k v) a = pfind m a := by
  intro m v
  induction m with
  | nil => simp [pinsert, pfind, h]
  | cons e rest ih =>
    obtain ⟨k2, v2⟩ := e
    unfold pinsert
    by_cases h2 : k = k2
    · rw [if_pos h2]
      subst h2
      simp [pfind, if_neg h]
    · rw [if_neg h2]
      unfold pfind
      by_cases h3 : a = k2
      · rw [if_pos h3, if_pos h3]
      · rw [if_neg h3, if_neg h3]
        exact ih

theorem pfind_perase_ne {a k : Int} (h : a ≠ k) : ∀ (m : PMap),
    pfind (perase m k) a = pfind m a := by
  intro m
  induction m with
  | nil => rfl
  | cons e rest ih =>
    obtain ⟨k2, v2⟩ := e
    unfold perase
    by_cases h2 : k = k2
    · rw [if_pos h2]
      subst h2
      simp only [pfind]
      rw [if_neg h]
    · rw [if_neg h2]
      unfold pfind
      by_cases h3 : a = k2
      · rw [if_pos h3, if_pos h3]
      · rw [if_neg h3, if_neg h3]
        exact ih

theorem pfind_some_mem : ∀ (m : PMap) (a : Int) (q : Process),
    pfind m a = some q → (a, q) ∈ m := by
  intro m
  induction m with
  | nil => intro a q h; exact absurd h (by simp [pfind])
  | cons e rest ih =>
    intro a q h
    obtain ⟨k2, v2⟩ := e
    unfold pfind at h
    by_cases h2 : a = k2
    · rw [if_pos h2] at h
      injection h with h
      subst h2; subst h
      exact List.mem_cons_self _ _
    · rw [if_neg h2] at h
      exact List.mem_cons_of_mem _ (ih a q h)

theorem plookup_eq_pfind : ∀ (m : PMap) (a : Int),
    plookup m a = (pfind m a).getD default := by
  intro m
  induction m with
  | nil => intro a; rfl
  | cons e rest ih =>
    intro a
    obtain ⟨k2, v2⟩ := e
    unfold plookup pfind
    by_cases h : a = k2
    · rw [if_pos h, if_pos h]
      rfl
    · rw [if_neg h, if_neg h]
      exact ih a

theorem pinsert_mem : ∀ (m : PMap) (k : Int) (v : Process) (e : Int × Process),
    e ∈ pinsert m k v → e ∈ m ∨ e = (k, v) := by
  intro m k v
  induction m with
  | nil =>
    intro e he
    simp [pinsert] at he
    exact Or.inr he
  | cons e2 rest ih =>
    intro e he
    obtain ⟨k2, v2⟩ := e2
    unfold pinsert at he
    by_cases h : k = k2
    · rw [if_pos h] at he
      rcases List.mem_cons.mp he with h2 | h2
      · subst h; subst h2; exact Or.inr rfl
      · exact Or.inl (List.mem_cons_of_mem _ h2)
    · rw [if_neg h] at he
      rcases List.mem_cons.mp he with h2 | h2
      · subst h2; exact Or.inl (List.mem_cons_self _ _)
      · rcases ih e h2 with h3 | h3
        · exact Or.inl (List.mem_cons_of_mem _ h3)
        · exact Or.inr h3

theorem perase_mem : ∀ (m : PMap) (k : Int) (e : Int × Process),
    e ∈ perase m k → e ∈ m := by
  intro m k
  induction m with
  | nil => intro e he; exact absurd he (by simp [perase])
  | cons e2 rest ih =>
    intro e he
    obtain ⟨k2, v2⟩ := e2
    unfold perase at he
    by_cases h : k = k2
    · rw [if_pos h] at he
      exact List.mem_cons_of_mem _ he
    · rw [if_neg h] at he
      rcases List.mem_cons.mp he with h2 | h2
      · subst h2; exact List.mem_cons_self _ _
      · exact List.mem_cons_of_mem _ (ih e h2)

theorem pinsert_keys_mem : ∀ (m : PMap) (k : Int) (v : Process) (k3 : Int),
    k3 ∈ (pinsert m k v).map (·.1) → k3 ∈ m.map (·.1) ∨ k3 = k := by
  intro m k v k3 h
  rw [List.mem_map] at h
  obtain ⟨e, he, hk⟩ := h
  rcases pinsert_mem m k v e he with h2 | h2
  · exact Or.inl (List.mem_map.mpr ⟨e, h2, hk⟩)
  · subst h2; exact Or.inr hk.symm

/-- Inserting with `pinsert` keeps the keys of a map pairwise distinct. -/
theorem pinsert_keysDistinct {m : PMap} {k : Int} {v : Process}
    (h : (m.map (·.1)).Pairwise (· ≠ ·)) :
    ((pinsert m k v).map (·.1)).Pairwise (· ≠ ·) := by
  induction m with
  | nil => simp [pinsert]
  | cons e rest ih =>
    obtain ⟨k2, v2⟩ := e
    rw [List.map_cons, List.pairwise_cons] at h
    obtain ⟨hk2, hrest⟩ := h
    unfold pinsert
    by_cases h2 : k = k2
    · rw [if_pos h2]
      rw [List.map_cons, List.pairwise_cons]
      exact ⟨hk2, hrest⟩
    · rw [if_neg h2]
      rw [List.map_cons, List.pairwise_cons]
      refine ⟨?_, ih hrest⟩
      intro k3 hk3
      rcases pinsert_keys_mem rest k v k3 hk3 with h3 | h3
      · exact hk2 k3 h3
      · subst h3
        exact fun hcontra => h2 hcontra.symm

/-- Erasing with `perase` keeps the keys of a map pairwise distinct. -/
theorem perase_keysDistinct {m : PMap} {k : Int}
    (h : (m.map (·.1)).Pairwise (· ≠ ·)) :
    ((perase m k).map (·.1)).Pairwise (· ≠ ·) := by
  induction m with
  | nil => simp [perase]
  | cons e rest ih =>
    obtain ⟨k2, v2⟩ := e
    rw [List.map_cons, List.pairwise_cons] at h
    obtain ⟨hk2, hrest⟩ := h
    unfold perase
    by_cases h2 : k = k2
    · rw [if_pos h2]
      exact hrest
    · rw [if_neg h2]
      rw [List.map_cons, List.pairwise_cons]
      refine ⟨?_, ih hrest⟩
      intro k3 hk3
      rw [List.mem_map] at hk3
      obtain ⟨e, he, hk⟩ := hk3
      exact hk2 k3 (List.mem_map.mpr ⟨e, perase_mem rest k e he, hk⟩)

/-! ### Generic lemmas about `foldl pinsert` map building -/

theorem pfind_foldl_provenance (key : Process → Int) :
    ∀ (l : List Process) (acc : PMap) (a : Int) (q : Process),
      pfind (List.foldl (fun m p => pinsert m (key p) p) acc l) a = some q →
      q ∈ l ∨ pfind acc a = some q := by
  intro l
  induction l with
  | nil => intro acc a q h; exact Or.inr h
  | cons x xs ih =>
    intro acc a q h
    rw [List.foldl_cons] at h
    rcases ih _ a q h with h2 | h2
    · exact Or.inl (List.mem_cons_of_mem _ h2)
    · by_cases h3 : a = key x
      · subst h3
        rw [pfind_pinsert_self] at h2
        injection h2 with h2
        subst h2
        exact Or.inl (List.mem_cons_self _ _)
      · rw [pfind_pinsert_ne h3] at h2
        exact Or.inr h2

theorem pfind_foldl_frame (key : Process → Int) :
    ∀ (l : List Process) (acc : PMap) (a : Int), (∀ p ∈ l, key p ≠ a) →
      pfind (List.foldl (fun m p => pinsert m (key p) p) acc l) a = pfind acc a := by
  intro l
  induction l with
  | nil => intro acc a _; rfl
  | cons x xs ih =>
    intro acc a hna
    rw [List.foldl_cons]
    rw [ih _ a (fun p hp => hna p (List.mem_cons_of_mem _ hp))]
    exact pfind_pinsert_ne (fun h => hna x (List.mem_cons_self _ _) h.symm) _ _

theorem pfind_foldl_uniq (key : Process → Int) :
    ∀ (l : List Process) (acc : PMap) (p : Process), p ∈ l →
      (∀ q ∈ l, key q = key p → q = p) →
      pfind (List.foldl (fun m p2 => pinsert m (key p2) p2) acc l) (key p) = some p := by
  intro l
  induction l with
  | nil => intro acc p hp _; exact absurd hp (List.not_mem_nil p)
  | cons x xs ih =>
    intro acc p hp huniq
    rw [List.foldl_cons]
    by_cases hmem : p ∈ xs
    · exact ih _ p hmem (fun q hq => huniq q (List.mem_cons_of_mem _ hq))
    · have hpx : p = x := by
        rcases List.mem_cons.mp hp with h | h
        · exact h
        · exact absurd h hmem
      subst hpx
      rw [pfind_foldl_frame key xs _ (key p) ?_]
      · exact pfind_pinsert_self _ _ _
      · intro q hq hkq
        exact hmem (huniq q (List.mem_cons_of_mem _ hq) hkq ▸ hq)

theorem mem_foldl_pinsert (key : Process → Int) :
    ∀ (l : List Process) (acc : PMap) (e : Int × Process),
      e ∈ List.foldl (fun m p => pinsert m (key p) p) acc l →
      e ∈ acc ∨ ∃ p ∈ l, e = (key p, p) := by
  intro l
  induction l with
  | nil => intro acc e he; exact Or.inl he
  | cons x xs ih =>
    intro acc e he
    rw [List.foldl_cons] at he
    rcases ih _ e he with h2 | h2
    · rcases pinsert_mem acc (key x) x e h2 with h3 | h3
      · exact Or.inl h3
      · exact Or.inr ⟨x, List.mem_cons_self _ _, h3⟩
    · obtain ⟨p, hp, hep⟩ := h2
      exact Or.inr ⟨p, List.mem_cons_of_mem _ hp, hep⟩

theorem foldl_pinsert_keysDistinct (key : Process → Int) :
    ∀ (l : List Process) (acc : PMap), ((acc.map (·.1)).Pairwise (· ≠ ·)) →
      (((List.foldl (fun m p => pinsert m (key p) p) acc l).map (·.1)).Pairwise (· ≠ ·)) := by
  intro l
  induction l with
  | nil => intro acc h; exact h
  | cons x xs ih =>
    intro acc h
    rw [List.foldl_cons]
    exact ih _ (pinsert_keysDistinct h)

theorem pfind_foldl_domain (key : Process → Int) :
    ∀ (l : List Process) (acc : PMap) (a : Int), a ∈ l.map key →
      ∃ q, pfind (List.foldl (fun m p => pinsert m (key p) p) acc l) a = some q := by
  intro l
  induction l with
  | nil => intro acc a ha; exact absurd ha (by simp)
  | cons x xs ih =>
    intro acc a ha
    rw [List.foldl_cons]
    by_cases h2 : a ∈ xs.map key
    · exact ih _ a h2
    · have hax : a = key x := by
        rw [List.map_cons, List.mem_cons] at ha
        rcases ha with h | h
        · exact h
        · exact absurd h h2
      subst hax
      rw [pfind_foldl_frame key xs _ (key x)
        (fun p hp h => h2 (h ▸ List.mem_map.mpr ⟨p, hp, rfl⟩))]
      exact ⟨x, pfind_pinsert_self _ _ _⟩

/-- Lookups of `aTimesMap` on genuine arrival times return an input process. -/
theorem buildATimes_lookup_mem {ps : List Process} {a : Int}
    (ha : a ∈ ps.map (·.arrivalTime)) : plookup (buildATimes ps) a ∈ ps := by
  obtain ⟨q, hq⟩ : ∃ q, pfind (buildATimes ps) a = some q :=
    pfind_foldl_domain (·.arrivalTime) ps [] a ha
  rcases pfind_foldl_provenance (·.arrivalTime) ps [] a q hq with hmem | habs
  · rw [plookup_eq_pfind, hq]
    simpa using hmem
  · exact absurd habs (by simp [pfind])

/-! ### Lemmas about `sortInts` and the drain-phase group map -/

theorem insertSorted_perm (x : Int) :
    ∀ l : List Int, (insertSorted x l).Perm (x :: l) := by
  intro l
  induction l with
  | nil => exact List.Perm.refl _
  | cons y ys ih =>
    unfold insertSorted
    split
    · exact List.Perm.refl _
    · exact (List.Perm.cons y ih).trans (List.Perm.swap x y ys)

theorem sortInts_perm : ∀ l : List Int, (sortInts l).Perm l := by
  intro l
  induction l with
  | nil => exact List.Perm.refl _
  | cons x xs ih =>
    unfold sortInts
    exact (insertSorted_perm x (sortInts xs)).trans (List.Perm.cons x ih)

theorem mem_sortInts {a : Int} {l : List Int} (h : a ∈ l) : a ∈ sortInts l :=
  (sortInts_perm l).mem_iff.mpr h

theorem glookup_ginsert_self : ∀ (g : GMap) (k : Int) (v : Process),
    glookup (ginsert g k v) k = glookup g k ++ [v] := by
  intro g k v
  induction g with
  | nil => simp [ginsert, glookup]
  | cons e rest ih =>
    obtain ⟨k2, l⟩ := e
    unfold ginsert
    by_cases h : k = k2
    · rw [if_pos h]
      unfold glookup
      rw [if_pos h, if_pos h]
    · rw [if_neg h]
      unfold glookup
      rw [if_neg h, if_neg h]
      exact ih

theorem glookup_ginsert_ne {k2 k : Int} (h : k2 ≠ k) : ∀ (g : GMap) (v : Process),
    glookup (ginsert g k v) k2 = glookup g k2 := by
  intro g v
  induction g with
  | nil => simp [ginsert, glookup, h]
  | cons e rest ih =>
    obtain ⟨k3, l⟩ := e
    unfold ginsert
    by_cases h2 : k = k3
    · rw [if_pos h2]
      subst h2
      unfold glookup
      rw [if_neg h, if_neg h]
    · rw [if_neg h2]
      unfold glookup
      by_cases h3 : k2 = k3
      · rw [if_pos h3, if_pos h3]
      · rw [if_neg h3, if_neg h3]
        exact ih

/-- Entries already in a group survive later inserts. -/
theorem glookup_foldl_ginsert_mono (key : Process → Int) :
    ∀ (vs : List Process) (acc : GMap) (k : Int) (q : Process),
      q ∈ glookup acc k →
      q ∈ glookup (List.foldl (fun g v => ginsert g (key v) v) acc vs) k := by
  intro vs
  induction vs with
  | nil => intro acc k q h; exact h
  | cons x xs ih =>
    intro acc k q h
    rw [List.foldl_cons]
    apply ih
    by_cases h2 : k = key x
    · subst h2
      rw [glookup_ginsert_self]
      exact List.mem_append.mpr (Or.inl h)
    · rw [glookup_ginsert_ne h2]
      exact h

/-- Every value lands in the group of its key. -/
theorem mem_glookup_buildGroups (key : Process → Int) :
    ∀ (vs : List Process) (acc : GMap) (v : Process), v ∈ vs →
      v ∈ glookup (List.foldl (fun g q => ginsert g (key q) q) acc vs) (key v) := by
  intro vs
  induction vs with
  | nil => intro acc v hv; exact absurd hv (List.not_mem_nil v)
  | cons x xs ih =>
    intro acc v hv
    rw [List.foldl_cons]
    rcases List.mem_cons.mp hv with h | h
    · subst h
      apply glookup_foldl_ginsert_mono
      rw [glookup_ginsert_self]
      exact List.mem_append.mpr (Or.inr (List.mem_singleton.mpr rfl))
    · exact ih _ v h

/-- Every group member originates from the inserted values. -/
theorem glookup_buildGroups_mem (key : Process → Int) :
    ∀ (vs : List Process) (acc : GMap) (k : Int) (q : Process),
      q ∈ glookup (List.foldl (fun g v => ginsert g (key v) v) acc vs) k →
      q ∈ vs ∨ q ∈ glookup acc k := by
  intro vs
  induction vs with
  | nil => intro acc k q h; exact Or.inr h
  | cons x xs ih =>
    intro acc k q h
    rw [List.foldl_cons] at h
    rcases ih _ k q h with h2 | h2
    · exact Or.inl (List.mem_cons_of_mem _ h2)
    · by_cases h3 : k = key x
      · subst h3
        rw [glookup_ginsert_self] at h2
        rcases List.mem_append.mp h2 with h4 | h4
        · exact Or.inr h4
        · rw [List.mem_singleton] at h4
          subst h4
          exact Or.inl (List.mem_cons_self _ _)
      · rw [glookup_ginsert_ne h3] at h2
        exact Or.inr h2

theorem glookup_ne_nil_mem_keys : ∀ (g : GMap) (k : Int),
    glookup g k ≠ [] → k ∈ g.map (·.1) := by
  intro g k
  induction g with
  | nil => intro h; exact absurd rfl h
  | cons e rest ih =>
    obtain ⟨k2, l⟩ := e
    intro h
    unfold glookup at h
    by_cases h2 : k = k2
    · rw [List.map_cons, List.mem_cons]
      exact Or.inl h2
    · rw [if_neg h2] at h
      exact List.mem_cons_of_mem _ (ih h)

/-! ### Drain-phase row coverage -/

/-- Rows already emitted survive any later extension of the run. -/
theorem covers_mono {s s2 : PreState} (hext : PreExtends s s2) {pid arr : Int}
    (h : ∃ r ∈ s.schedule, r.pid = pid ∧ r.arrival = arr) :
    ∃ r ∈ s2.schedule, r.pid = pid ∧ r.arrival = arr := by
  obtain ⟨new, gnew, hs, -, -, -, -⟩ := hext
  obtain ⟨r, hr, h1, h2⟩ := h
  refine ⟨r, ?_, h1, h2⟩
  rw [hs]
  exact List.mem_append.mpr (Or.inl hr)

theorem drainSingle_covers {p : Process} {s s2 : PreState}
    (h : drainSingle p s = some s2) :
    ∃ r ∈ s2.schedule, r.pid = p.processID ∧ r.arrival = p.arrivalTime := by
  unfold drainSingle at h
  split at h
  · injection h with h
    subst h
    exact ⟨_, List.mem_append.mpr (Or.inr (List.mem_singleton.mpr rfl)), rfl, rfl⟩
  · exact absurd h (by simp)

theorem drainMultiOne_covers {am : PMap} {a : Int} {s s2 : PreState}
    (h : drainMultiOne am a s = some s2) :
    ∃ r ∈ s2.schedule, r.pid = (plookup am a).processID ∧
      r.arrival = (plookup am a).arrivalTime := by
  unfold drainMultiOne at h
  split at h
  · injection h with h
    subst h
    exact ⟨_, List.mem_append.mpr (Or.inr (List.mem_singleton.mpr rfl)), rfl, rfl⟩
  · exact absurd h (by simp)

theorem drainMulti_covers :
    ∀ (arrs : List Int) (am : PMap) (s s2 : PreState),
      drainMulti am arrs s = some s2 → ∀ a ∈ arrs,
      ∃ r ∈ s2.schedule, r.pid = (plookup am a).processID ∧
        r.arrival = (plookup am a).arrivalTime := by
  intro arrs
  induction arrs with
  | nil => intro am s s2 h a ha; exact absurd ha (List.not_mem_nil a)
  | cons a0 rest ih =>
    intro am s s2 h a ha
    unfold drainMulti at h
    obtain ⟨s1, h1, h2⟩ := Option.bind_eq_some.mp h
    rcases List.mem_cons.mp ha with h3 | h3
    · subst h3
      exact covers_mono (drainMulti_extends rest am s1 s2 h2) (drainMultiOne_covers h1)
    · exact ih am s1 s2 h2 a h3

theorem drainGroup_covers {g : GMap} {k : Int} {s s2 : PreState}
    (h : drainGroup g k s = some s2) {v : Process} (hv : v ∈ glookup g k)
    (huniq : ∀ q ∈ glookup g k, q.arrivalTime = v.arrivalTime → q = v) :
    ∃ r ∈ s2.schedule, r.pid = v.processID ∧ r.arrival = v.arrivalTime := by
  unfold drainGroup at h
  split at h
  · rename_i hlen
    obtain ⟨x, hx⟩ := List.length_eq_one.mp hlen
    rw [hx] at hv
    rw [List.mem_singleton] at hv
    subst hv
    have hhead : (glookup g k).headI = v := by rw [hx]; rfl
    rw [hhead] at h
    exact drainSingle_covers h
  · have hfind : pfind (groupATimes (glookup g k)) v.arrivalTime = some v :=
      pfind_foldl_uniq (·.arrivalTime) (glookup g k) [] v hv huniq
    have hlook : plookup (groupATimes (glookup g k)) v.arrivalTime = v := by
      rw [plookup_eq_pfind, hfind]
      rfl
    have hmem : v.arrivalTime ∈ sortInts ((glookup g k).map (·.arrivalTime)) :=
      mem_sortInts (List.mem_map.mpr ⟨v, hv, rfl⟩)
    have hcov := drainMulti_covers _ _ _ _ h v.arrivalTime hmem
    rw [hlook] at hcov
    exact hcov

theorem drainLoop_covers :
    ∀ (ks : List Int) (g : GMap) (s s2 : PreState),
      drainLoop g ks s = some s2 → ∀ k ∈ ks, ∀ v ∈ glookup g k,
      (∀ q ∈ glookup g k, q.arrivalTime = v.arrivalTime → q = v) →
      ∃ r ∈ s2.schedule, r.pid = v.processID ∧ r.arrival = v.arrivalTime := by
  intro ks
  induction ks with
  | nil => intro g s s2 h k hk; exact absurd hk (List.not_mem_nil k)
  | cons k0 rest ih =>
    intro g s s2 h k hk v hv huniq
    unfold drainLoop at h
    obtain ⟨s1, h1, h2⟩ := Option.bind_eq_some.mp h
    rcases List.mem_cons.mp hk with h3 | h3
    · subst h3
      exact covers_mono (drainLoop_extends rest g s1 s2 h2) (drainGroup_covers h1 hv huniq)
    · exact ih g s1 s2 h2 k h3 v hv huniq

/-- If the values left over for the drain phase have pairwise-distinct
arrival times, every one of them receives a report row. -/
theorem drainPhase_covers {key : Process → Int} {s s2 : PreState}
    (h : drainPhase key s = some s2)
    (hdist : (s.processesLeft.map (·.2)).Pairwise
      (fun q1 q2 => q1.arrivalTime ≠ q2.arrivalTime)) :
    ∀ v ∈ s.processesLeft.map (·.2),
      ∃ r ∈ s2.schedule, r.pid = v.processID ∧ r.arrival = v.arrivalTime := by
  intro v hv
  unfold drainPhase at h
  have hvg : v ∈ glookup (buildGroups key (s.processesLeft.map (·.2))) (key v) :=
    mem_glookup_buildGroups key _ [] v hv
  have hkeys : key v ∈
      sortInts ((buildGroups key (s.processesLeft.map (·.2))).map (·.1)) := by
    refine mem_sortInts (glookup_ne_nil_mem_keys _ _ ?_)
    intro hc
    rw [hc] at hvg
    exact List.not_mem_nil v hvg
  refine drainLoop_covers _ _ _ _ h (key v) hkeys v hvg ?_
  intro q hq harr2
  have hqvs : q ∈ s.processesLeft.map (·.2) := by
    rcases glookup_buildGroups_mem key _ [] (key v) q hq with h2 | h2
    · exact h2
    · simp [glookup] at h2
  by_cases hqv : q = v
  · exact hqv
  · have hsym : Symmetric (fun q1 q2 : Process => q1.arrivalTime ≠ q2.arrivalTime) :=
      fun _ _ hne e => hne e.symm
    exact absurd harr2 (List.Pairwise.forall hsym hdist hqvs hv hqv)

/-! ### Main-loop invariant for per-process row coverage -/

theorem eq_of_pid_eq {ps : List Process}
    (hid : ps.Pairwise (fun p q => p.processID ≠ q.processID))
    {p q : Process} (hp : p ∈ ps) (hq : q ∈ ps) (h : p.processID = q.processID) : p = q := by
  by_cases hpq : p = q
  · exact hpq
  · have hsym : Symmetric (fun p q : Process => p.processID ≠ q.processID) :=
      fun _ _ hne e => hne e.symm
    exact absurd h (List.Pairwise.forall hsym hid hp hq hpq)

theorem preemptBlock_some {m : PMap} {a : Int} {s s2 : PreState}
    (h : preemptBlock m a s = some s2) : s2 = preemptResult m a s := by
  unfold preemptBlock at h
  split at h
  · injection h with h
    exact h.symm
  · exact absurd h (by simp)

theorem completeBlock_some {m : PMap} {a : Int} {s s2 : PreState}
    (h : completeBlock m a s = some s2) : s2 = completeResult m a s := by
  unfold completeBlock at h
  split at h
  · injection h with h
    exact h.symm
  · exact absurd h (by simp)

theorem preemptResult_inv {ps : List Process} {a : Int} {s : PreState}
    (hid : ps.Pairwise (fun p q => p.processID ≠ q.processID))
    (ha : a ∈ ps.map (·.arrivalTime)) (hinv : LoopInv ps s) :
    LoopInv ps (preemptResult (buildATimes ps) a s) := by
  obtain ⟨⟨q0, hq0, hq0id⟩, hentries, hkeys, hcover⟩ := hinv
  refine ⟨⟨plookup (buildATimes ps) a, buildATimes_lookup_mem ha, rfl, rfl⟩, ?_, ?_, ?_⟩
  · intro e he
    have he2 : e ∈ pinsert s.processesLeft s.currProcess.processID
        { s.currProcess with burstDuration := s.currProcess.burstDuration - a } := he
    rcases pinsert_mem _ _ _ e he2 with h2 | h2
    · exact hentries e h2
    · subst h2
      exact ⟨q0, hq0, hq0id.1, hq0id.1, hq0id.2⟩
  · exact pinsert_keysDistinct hkeys
  · intro p hp
    rcases hcover p hp with ⟨q2, hfind, hq2⟩ | hcov
    · by_cases hpid : p.processID = s.currProcess.processID
      · refine Or.inl
          ⟨{ s.currProcess with burstDuration := s.currProcess.burstDuration - a }, ?_, hpid.symm, ?_⟩
        · show pfind (pinsert s.processesLeft s.currProcess.processID
            { s.currProcess with burstDuration := s.currProcess.burstDuration - a })
            p.processID = _
          rw [hpid]
          exact pfind_pinsert_self _ _ _
        · have hq0p : q0 = p := eq_of_pid_eq hid hq0 hp (hq0id.1.symm.trans hpid.symm)
          exact hq0p ▸ hq0id.2
      · refine Or.inl ⟨q2, ?_, hq2⟩
        show pfind (pinsert s.processesLeft s.currProcess.processID
          { s.currProcess with burstDuration := s.currProcess.burstDuration - a })
          p.processID = some q2
        rw [pfind_pinsert_ne hpid]
        exact hfind
    · obtain ⟨r, hr, h1, h2⟩ := hcov
      exact Or.inr ⟨r, List.mem_append.mpr (Or.inl hr), h1, h2⟩

theorem completeResult_inv {ps : List Process} {a : Int} {s : PreState}
    (hid : ps.Pairwise (fun p q => p.processID ≠ q.processID))
    (ha : a ∈ ps.map (·.arrivalTime)) (hinv : LoopInv ps s) :
    LoopInv ps (completeResult (buildATimes ps) a s) := by
  obtain ⟨⟨q0, hq0, hq0id⟩, hentries, hkeys, hcover⟩ := hinv
  refine ⟨⟨plookup (buildATimes ps) a, buildATimes_lookup_mem ha, rfl, rfl⟩, ?_, ?_, ?_⟩
  · intro e he
    exact hentries e (perase_mem _ _ e he)
  · exact perase_keysDistinct hkeys
  · intro p hp
    by_cases hpid : p.processID = s.currProcess.processID
    · refine Or.inr
        ⟨_, List.mem_append.mpr (Or.inr (List.mem_singleton.mpr rfl)), hpid.symm, ?_⟩
      have hq0p : q0 = p := eq_of_pid_eq hid hq0 hp (hq0id.1.symm.trans hpid.symm)
      exact hq0p ▸ hq0id.2
    · rcases hcover p hp with ⟨q2, hfind, hq2⟩ | hcov
      · refine Or.inl ⟨q2, ?_, hq2⟩
        show pfind (perase s.processesLeft s.currProcess.processID) p.processID = some q2
        rw [pfind_perase_ne hpid]
        exact hfind
      · obtain ⟨r, hr, h1, h2⟩ := hcov
        exact Or.inr ⟨r, List.mem_append.mpr (Or.inl hr), h1, h2⟩

theorem sjfStepBody_inv {ps : List Process} {isLast : Bool} {a : Int} {s s2 : PreState}
    (hid : ps.Pairwise (fun p q => p.processID ≠ q.processID))
    (ha : a ∈ ps.map (·.arrivalTime)) (hinv : LoopInv ps s)
    (h : sjfStepBody (buildATimes ps) isLast a s = some s2) : LoopInv ps s2 := by
  unfold sjfStepBody at h
  split at h
  · rw [preemptBlock_some h]
    exact preemptResult_inv hid ha hinv
  · split at h
    · rw [completeBlock_some h]
      exact completeResult_inv hid ha hinv
    · injection h with h
      subst h
      exact hinv

theorem priStepBody_inv {ps : List Process} {isLast : Bool} {a : Int} {s s2 : PreState}
    (hid : ps.Pairwise (fun p q => p.processID ≠ q.processID))
    (ha : a ∈ ps.map (·.arrivalTime)) (hinv : LoopInv ps s)
    (h : priStepBody (buildATimes ps) isLast a s = some s2) : LoopInv ps s2 := by
  unfold priStepBody at h
  obtain ⟨s1, h1, h2⟩ := Option.bind_eq_some.mp h
  have hinv1 : LoopInv ps s1 := by
    split at h1
    · rw [preemptBlock_some h1]
      exact preemptResult_inv hid ha hinv
    · injection h1 with h1
      subst h1
      exact hinv
  split at h2
  · rw [completeBlock_some h2]
    exact completeResult_inv hid ha hinv1
  · injection h2 with h2
    subst h2
    exact hinv1

theorem sjfStep_inv {ps : List Process} {isLast : Bool} {aPrev a : Int} {s s2 : PreState}
    (hid : ps.Pairwise (fun p q => p.processID ≠ q.processID))
    (ha : a ∈ ps.map (·.arrivalTime)) (hinv : LoopInv ps s)
    (h : sjfStep (buildATimes ps) isLast aPrev a s = some s2) : LoopInv ps s2 := by
  have hinv2 : LoopInv ps (stepState aPrev a s) := hinv
  exact sjfStepBody_inv hid ha hinv2 h

theorem priStep_inv {ps : List Process} {isLast : Bool} {aPrev a : Int} {s s2 : PreState}
    (hid : ps.Pairwise (fun p q => p.processID ≠ q.processID))
    (ha : a ∈ ps.map (·.arrivalTime)) (hinv : LoopInv ps s)
    (h : priStep (buildATimes ps) isLast aPrev a s = some s2) : LoopInv ps s2 := by
  have hinv2 : LoopInv ps (stepState aPrev a s) := hinv
  exact priStepBody_inv hid ha hinv2 h

theorem mainLoop_inv {ps : List Process}
    {step : PMap → Bool → Int → Int → PreState → Option PreState}
    (hstep : ∀ (isLast : Bool) (aPrev a : Int) (s s2 : PreState),
      a ∈ ps.map (·.arrivalTime) → LoopInv ps s →
      step (buildATimes ps) isLast aPrev a s = some s2 → LoopInv ps s2) :
    ∀ (rest : List Int) (aPrev : Int) (s s2 : PreState),
      (∀ a ∈ rest, a ∈ ps.map (·.arrivalTime)) →
      mainLoop step (buildATimes ps) aPrev rest s = some s2 →
      LoopInv ps s → LoopInv ps s2 := by
  intro rest
  induction rest with
  | nil =>
    intro aPrev s s2 _ h hinv
    injection h with h
    subst h
    exact hinv
  | cons a rest2 ih =>
    intro aPrev s s2 hsub h hinv
    unfold mainLoop at h
    obtain ⟨s1, h1, h2⟩ := Option.bind_eq_some.mp h
    exact ih a s1 s2 (fun a2 ha2 => hsub a2 (List.mem_cons_of_mem _ ha2)) h2
      (hstep _ _ _ _ _ (hsub a (List.mem_cons_self _ _)) hinv h1)

theorem loopInv_init {ps : List Process} {a0 : Int}
    (hid : ps.Pairwise (fun p q => p.processID ≠ q.processID))
    (ha0 : a0 ∈ ps.map (·.arrivalTime)) :
    LoopInv ps
      { currProcess := plookup (buildATimes ps) a0, processesLeft := buildLeft ps } := by
  refine ⟨⟨plookup (buildATimes ps) a0, buildATimes_lookup_mem ha0, rfl, rfl⟩, ?_, ?_, ?_⟩
  · intro e he
    have he2 : e ∈ List.foldl (fun m p => pinsert m p.processID p) [] ps := he
    rcases mem_foldl_pinsert (·.processID) ps [] e he2 with h2 | h2
    · exact absurd h2 (List.not_mem_nil e)
    · obtain ⟨p, hp, hep⟩ := h2
      subst hep
      exact ⟨p, hp, rfl, rfl, rfl⟩
  · exact foldl_pinsert_keysDistinct (·.processID) ps [] (by simp)
  · intro p hp
    refine Or.inl ⟨p, ?_, rfl, rfl⟩
    exact pfind_foldl_uniq (·.processID) ps [] p hp
      (fun q hq h => eq_of_pid_eq hid hq hp h)

/-- The coverage theorem shared by `SJFSchedule` and `SJFPrioritySchedule`:
with pairwise-distinct arrival times and ids, every input process receives
at least one report row in a completed run. -/
theorem preSchedule_covers
    {step : PMap → Bool → Int → Int → PreState → Option PreState}
    {key : Process → Int} {ps : List Process} {out : PreState}
    (hstep : ∀ (isLast : Bool) (aPrev a : Int) (s s2 : PreState),
      a ∈ ps.map (·.arrivalTime) → LoopInv ps s →
      step (buildATimes ps) isLast aPrev a s = some s2 → LoopInv ps s2)
    (harr : ps.Pairwise (fun p q => p.arrivalTime ≠ q.arrivalTime))
    (hid : ps.Pairwise (fun p q => p.processID ≠ q.processID))
    (h : preSchedule step key ps = some out) :
    ∀ p ∈ ps, ∃ r ∈ out.schedule, r.pid = p.processID ∧ r.arrival = p.arrivalTime := by
  intro p hp
  unfold preSchedule at h
  split at h
  · exact absurd h (by simp)
  · rename_i a0 rest heq
    obtain ⟨s1, h1, h2⟩ := Option.bind_eq_some.mp h
    have hmemsort : ∀ a ∈ a0 :: rest, a ∈ ps.map (·.arrivalTime) := by
      intro a ha
      have ha2 : a ∈ sortInts (ps.map (·.arrivalTime)) := by
        rw [heq]
        exact ha
      exact (sortInts_perm _).mem_iff.mp ha2
    have hinv0 := loopInv_init hid (hmemsort a0 (List.mem_cons_self _ _))
    have hinv1 := mainLoop_inv hstep rest a0 _ s1
      (fun a ha => hmemsort a (List.mem_cons_of_mem _ ha)) h1 hinv0
    obtain ⟨-, hentries, hkeys, hcover⟩ := hinv1
    rcases hcover p hp with ⟨q2, hfind, hq2⟩ | hcov
    · have hq2mem : q2 ∈ s1.processesLeft.map (·.2) :=
        List.mem_map.mpr ⟨(p.processID, q2), pfind_some_mem _ _ _ hfind, rfl⟩
      have hdist : (s1.processesLeft.map (·.2)).Pairwise
          (fun q1 q3 => q1.arrivalTime ≠ q3.arrivalTime) := by
        rw [List.pairwise_map]
        rw [List.pairwise_map] at hkeys
        refine List.Pairwise.imp_of_mem ?_ hkeys
        intro e1 e2 h1mem h2mem hne harr2
        obtain ⟨p1, hp1, hk1, hs1id⟩ := hentries e1 h1mem
        obtain ⟨p2, hp2, hk2, hs2id⟩ := hentries e2 h2mem
        have hp1p2 : p1 ≠ p2 := by
          intro hcontra
          apply hne
          rw [hk1, hk2, hcontra]
        have hsym : Symmetric (fun p q : Process => p.arrivalTime ≠ q.arrivalTime) :=
          fun _ _ hne2 e => hne2 e.symm
        exact List.Pairwise.forall hsym harr hp1 hp2 hp1p2
          (hs1id.2.symm.trans (harr2.trans hs2id.2))
      obtain ⟨r, hr, hr1, hr2⟩ := drainPhase_covers h2 hdist q2 hq2mem
      exact ⟨r, hr, hr1.trans hq2.1, hr2.trans hq2.2⟩
    · exact covers_mono (drainPhase_extends h2) hcov

/-- C10 counterexample: `demoC` has two processes with pairwise-distinct
arrival times, yet both `SJFSchedule` and `SJFPrioritySchedule` emit exactly
one report row and one timeline segment in total (the row has Arrival
column 0, so the process arriving at 5 has no row): distinct arrival times
alone are not sufficient, because `processesLeft` is keyed by process id
and the duplicate id makes the completion-time `delete` drop the second
process before it ever runs. -/
theorem claim10_counterexample :
    (demoC.Pairwise (fun p q => p.arrivalTime ≠ q.arrivalTime)) ∧
    demoC ≠ [] ∧
    demoC.length = 2 ∧
    ((SJFSchedule demoC).map (fun out => (out.schedule.length, out.gantt.length)) =
      some (1, 1)) ∧
    ((SJFPrioritySchedule demoC).map (fun out => (out.schedule.length, out.gantt.length)) =
      some (1, 1)) ∧
    ((SJFSchedule demoC).map (fun out => out.schedule.map (·.arrival)) = some [0]) ∧
    ((SJFPrioritySchedule demoC).map (fun out => out.schedule.map (·.arrival)) =
      some [0]) := by decide

/-- C10 amended: for every input list whose processes have pairwise-distinct
arrival times AND pairwise-distinct process ids, any completed run of
`SJFSchedule` or `SJFPrioritySchedule` (the run panics on an empty input or
past 100 rows, so completion implies non-emptiness) emits at least one
report row — identified by the process id and arrival-time columns — and at
least one timeline segment for every input process.  Distinct arrival times
remain a necessary precondition because the internal arrival-time maps
retain only one process per arrival value; distinct ids are additionally
necessary because `processesLeft` retains only one process per id. -/
theorem claim10_amended (ps : List Process)
    (harr : ps.Pairwise (fun p q => p.arrivalTime ≠ q.arrivalTime))
    (hid : ps.Pairwise (fun p q => p.processID ≠ q.processID)) :
    (∀ out, SJFSchedule ps = some out → ∀ p ∈ ps,
      (∃ r ∈ out.schedule, r.pid = p.processID ∧ r.arrival = p.arrivalTime) ∧
      (∃ g ∈ out.gantt, g.pid = p.processID)) ∧
    (∀ out, SJFPrioritySchedule ps = some out → ∀ p ∈ ps,
      (∃ r ∈ out.schedule, r.pid = p.processID ∧ r.arrival = p.arrivalTime) ∧
      (∃ g ∈ out.gantt, g.pid = p.processID)) := by
  constructor
  · intro out h p hp
    obtain ⟨r, hr, h1, h2⟩ := preSchedule_covers
      (fun isLast aPrev a s s2 ha hinv h3 => sjfStep_inv hid ha hinv h3) harr hid h p hp
    refine ⟨⟨r, hr, h1, h2⟩, ?_⟩
    obtain ⟨hrows, -, -⟩ := SJFSchedule_spec h
    obtain ⟨-, g, hg, hgpid⟩ := hrows r hr
    exact ⟨g, hg, hgpid.trans h1⟩
  · intro out h p hp
    obtain ⟨r, hr, h1, h2⟩ := preSchedule_covers
      (fun isLast aPrev a s s2 ha hinv h3 => priStep_inv hid ha hinv h3) harr hid h p hp
    refine ⟨⟨r, hr, h1, h2⟩, ?_⟩
    obtain ⟨hrows, -, -⟩ := SJFPrioritySchedule_spec h
    obtain ⟨-, g, hg, hgpid⟩ := hrows r hr
    exact ⟨g, hg, hgpid.trans h1⟩

theorem claim10_amended_witness :
    (∃ r ∈ ((SJFSchedule demoA).getD default).schedule, r.pid = 1 ∧ r.arrival = 0) ∧
    (∃ g ∈ ((SJFPrioritySchedule demoA).getD default).gantt, g.pid = 2) :=
  ⟨((claim10_amended demoA (by decide) (by decide)).1 ((SJFSchedule demoA).getD default)
      (by decide) ⟨1, 0, 5, 0⟩ (by decide)).1,
    ((claim10_amended demoA (by decide) (by decide)).2 ((SJFPrioritySchedule demoA).getD default)
      (by decide) ⟨2, 1, 3, 0⟩ (by decide)).2⟩

end Sched
